import Mathlib

/-!
Verification of the staking / election-provider sample.

This file gives a shallow embedding, in Lean, of the parts of the sources
`frame/election-provider-support/src/lib.rs` and
`frame/staking/src/pallet/impls.rs` that the claims talk about, and proves
(or refutes) each claim against that embedding.

Modelling conventions:
* `AccountId`, balances, weights, era and session indices are `Nat`.  Machine
  arithmetic that can overflow in Rust is modelled explicitly (`% 2^32` for
  `u32` truncation, partiality for checked underflow); saturating adds on
  `usize` are modelled as plain `Nat` addition, which coincides with them on
  every value the surrounding checks allow through.
* The external collaborators (election solver, currency conversion, the
  `slashing` module's `compute_slash` / `apply_slash`) are parameters of the
  embedded functions; everything that is in the two source files is
  translated, not parametrised.
* Storage maps become functions `Nat → _` updated pointwise; storage values
  become fields of an explicit state record.
-/

namespace Substrate

/-- The encoded size of a SCALE `Compact<u32>` value (parity-scale-codec):
1 byte below `2^6`, 2 below `2^14`, 4 below `2^30`, otherwise 5. -/
def compactU32Size (v : Nat) : Nat :=
  if v < 64 then 1 else if v < 16384 then 2 else if v < 1073741824 then 4 else 5

/-- `StaticSizeTracker::length_prefix`: the SCALE length prefix of a vector
with `length` elements.  The final arm of the Rust `match` casts the `usize`
length to `u32` (a truncation, modelled by `% 2^32`) before taking the
compact encoded size. -/
def lengthPrefixBytes (length : Nat) : Nat :=
  if length ≤ 63 then 1
  else if length ≤ 16383 then 2
  else if length ≤ 1073741823 then 4
  else compactU32Size (length % 2 ^ 32)

/-- `StaticSizeTracker::<AccountId>::voter_size`: the predicted byte size of a
voter `(AccountId, u64, Vec<AccountId>)` who casted `votes` votes, where `aid`
is `mem::size_of::<AccountId>()` and the vote weight is a `u64` (8 bytes). -/
def voterSize (aid votes : Nat) : Nat :=
  lengthPrefixBytes votes + votes * aid + 8 + aid

/-- `StaticSizeTracker::final_byte_size_of`: internal accumulated size plus
the length prefix of the outer vector. -/
def finalByteSizeOf (trackerSize length : Nat) : Nat :=
  trackerSize + lengthPrefixBytes length

/-- `SnapshotBounds` from `frame/election-provider-support/src/lib.rs`:
optional byte-size bound and optional count bound (both `u32` in the source).
-/
structure SnapshotBounds where
  size : Option Nat
  count : Option Nat
deriving DecidableEq, Repr

/-- `SnapshotBounds::size_exhausted`: true iff a size bound exists and
`givenSize` exceeds it. -/
def SnapshotBounds.size_exhausted (b : SnapshotBounds) (givenSize : Nat) : Bool :=
  match b.size with
  | some s => givenSize > s
  | none => false

/-- `SnapshotBounds::count_exhausted`: true iff a count bound exists and
`givenCount` exceeds it. -/
def SnapshotBounds.count_exhausted (b : SnapshotBounds) (givenCount : Nat) : Bool :=
  match b.count with
  | some c => givenCount > c
  | none => false

/-- `SnapshotBounds::exhausts_size_count_non_zero`: the empty-collection edge
case (`size == 1 || count == 0`) never exhausts; otherwise defer to the two
individual checks. -/
def SnapshotBounds.exhausts_size_count_non_zero
    (b : SnapshotBounds) (givenSize givenCount : Nat) : Bool :=
  if givenSize = 1 ∨ givenCount = 0 then false
  else b.size_exhausted givenSize || b.count_exhausted givenCount

/-- `SnapshotBounds::predict_capacity`. -/
def SnapshotBounds.predict_capacity (b : SnapshotBounds) (itemSize : Nat) : Option Nat :=
  match b.size, b.count with
  | some maxSize, some maxCount => some (min maxCount (maxSize / max itemSize 1))
  | some maxSize, none => some (maxSize / max itemSize 1)
  | none, some maxCount => some maxCount
  | none, none => none

/-- A voter record `(AccountId, VoteWeight, Vec<AccountId>)`. -/
abbrev Voter := Nat × Nat × List Nat

/-- The true SCALE byte size of one encoded voter record, with `aid` the byte
size of an `AccountId` and an 8-byte `u64` vote weight. -/
def voterEncodedBytes (aid : Nat) (v : Voter) : Nat :=
  aid + 8 + (lengthPrefixBytes v.2.2.length + v.2.2.length * aid)

/-- The internal (prefix-less) SCALE size of a list of voter records. -/
def votersInternalSize (aid : Nat) (vs : List Voter) : Nat :=
  (vs.map (voterEncodedBytes aid)).sum

/-- The true SCALE encoded byte size of `Vec<(AccountId, u64, Vec<AccountId>)>`. -/
def votersEncodedSize (aid : Nat) (vs : List Voter) : Nat :=
  lengthPrefixBytes vs.length + votersInternalSize aid vs

/-- `Nominations`: a nominator's declared targets, the era the declaration was
submitted in, and the suppression flag. -/
structure Nominations where
  targets : List Nat
  submitted_in : Nat
  suppressed : Bool
deriving DecidableEq, Repr

/-- The slice of on-chain state read by `get_npos_voters_bounded`:
* `validators`: the keys of the `Validators` map in iteration order;
* `sortedListIter`: the traversal order of `T::SortedListProvider::iter()`;
* `nominatorsMap`: the `Nominators` storage map;
* `slashingSpans`: `stash ↦ spans.last_nonzero_slash()` for stashes that have
  a `SlashingSpans` entry;
* `weightOf`: the closure returned by `Self::weight_of_fn()` (its body goes
  through the external `CurrencyToVote` collaborator, hence a parameter);
* `aid`: `mem::size_of::<T::AccountId>()`. -/
structure VotersState where
  validators : List Nat
  sortedListIter : List Nat
  nominatorsMap : Nat → Option Nominations
  slashingSpans : Nat → Option Nat
  weightOf : Nat → Nat
  aid : Nat

/-- The `add_voter` closure of `get_npos_voters_bounded`: register the voter
with the static size tracker only when a size bound exists. -/
def addVoterTracker (bounds : SnapshotBounds) (aid tracker votes : Nat) : Nat :=
  match bounds.size with
  | some _ => tracker + voterSize aid votes
  | none => tracker

/-- The `next_will_exhaust` closure of `get_npos_voters_bounded`: would one
more voter exceed the size or the count bound? -/
def nextWillExhaust (bounds : SnapshotBounds) (tracker votersLen : Nat) : Bool :=
  match bounds.size, bounds.count with
  | some maxSize, some maxCount =>
      finalByteSizeOf tracker (votersLen + 1) > maxSize || votersLen + 1 > maxCount
  | some maxSize, none => finalByteSizeOf tracker (votersLen + 1) > maxSize
  | none, some maxCount => votersLen + 1 > maxCount
  | none, none => false

/-- The first loop of `get_npos_voters_bounded`: validators' self-votes, in
map iteration order, stopping (`break`) as soon as the bound would be
exhausted.  Returns the tracker state and the accumulated voters. -/
def validatorsLoop (st : VotersState) (bounds : SnapshotBounds) :
    List Nat → Nat → List Voter → Nat × List Voter
  | [], tracker, voters => (tracker, voters)
  | v :: rest, tracker, voters =>
      let tracker' := addVoterTracker bounds st.aid tracker 1
      if nextWillExhaust bounds tracker' voters.length then (tracker', voters)
      else validatorsLoop st bounds rest tracker' (voters ++ [(v, st.weightOf v, [v])])

/-- The stale-nomination filter: keep a target iff the nominator has no
recorded slashing span for it, or re-submitted since its last non-zero slash
(`targets.retain(..)` in the source). -/
def filterStale (st : VotersState) (submittedIn : Nat) (targets : List Nat) : List Nat :=
  targets.filter fun stash =>
    match st.slashingSpans stash with
    | some lastNonzero => submittedIn ≥ lastNonzero
    | none => true

/-- The second loop of `get_npos_voters_bounded`: nominators in sorted-list
order.  The unfiltered vote count is registered with the tracker *before* the
stale filter runs; a nominator whose filtered target list is empty is not
pushed (but stays registered); a missing `Nominators` entry is a defensive
no-op. -/
def nominatorsLoop (st : VotersState) (bounds : SnapshotBounds) :
    List Nat → Nat → List Voter → Nat × List Voter
  | [], tracker, voters => (tracker, voters)
  | n :: rest, tracker, voters =>
      match st.nominatorsMap n with
      | some noms =>
          let tracker' := addVoterTracker bounds st.aid tracker noms.targets.length
          if nextWillExhaust bounds tracker' voters.length then (tracker', voters)
          else
            let targets := filterStale st noms.submitted_in noms.targets
            if targets.length ≠ 0 then
              nominatorsLoop st bounds rest tracker'
                (voters ++ [(n, st.weightOf n, targets)])
            else nominatorsLoop st bounds rest tracker' voters
      | none => nominatorsLoop st bounds rest tracker voters

/-- `Pallet::get_npos_voters_bounded`: all validators' self-votes first, then
nominators until a bound is hit.  (The `with_capacity` pre-allocation hint
has no observable effect on the returned list and is omitted.) -/
def get_npos_voters_bounded (st : VotersState) (bounds : SnapshotBounds) : List Voter :=
  let out := validatorsLoop st bounds st.validators 0 []
  if nextWillExhaust bounds out.1 out.2.length then out.2
  else (nominatorsLoop st bounds st.sortedListIter out.1 out.2).2

/-- `IndividualExposure`: one nominator's backing of a validator. -/
structure IndividualExposure where
  who : Nat
  value : Nat
deriving DecidableEq, Repr

/-- `Exposure`: a validator's total backing stake for an era. -/
structure Exposure where
  total : Nat
  own : Nat
  others : List IndividualExposure
deriving DecidableEq, Repr

/-- `ValidatorPrefs`: commission (Perbill parts) and the blocked flag. -/
structure ValidatorPrefs where
  commission : Nat
  blocked : Bool
deriving DecidableEq, Repr

/-- `EraRewardPoints`: total points and the per-validator map (an association
list standing for the `BTreeMap`). -/
structure EraRewardPoints where
  total : Nat
  individual : List (Nat × Nat)
deriving DecidableEq, Repr

/-- `Forcing`: the era-forcing mode. -/
inductive Forcing where
  | NotForcing
  | ForceNew
  | ForceNone
  | ForceAlways
deriving DecidableEq, Repr

/-- `RewardDestination`: where a staker's rewards are paid. -/
inductive RewardDestination where
  | Staked
  | Stash
  | Controller
  | Account (dest : Nat)
  | None
deriving DecidableEq, Repr

/-- `StakingLedger`: the bonded ledger of a controller. -/
structure StakingLedger where
  stash : Nat
  total : Nat
  active : Nat
  unlocking : List (Nat × Nat)
  claimed_rewards : List Nat
deriving DecidableEq, Repr

/-- `UnappliedSlash`: a computed but not yet applied slash record. -/
structure UnappliedSlash where
  validator : Nat
  own : Nat
  others : List (Nat × Nat)
  reporters : List Nat
  payout : Nat
deriving DecidableEq, Repr

/-- `DisableStrategy` of the offence machinery. -/
inductive DisableStrategy where
  | Never
  | WhenSlashed
  | Always
deriving DecidableEq, Repr

/-- `OffenceDetails`: the offender (stash plus full-identification exposure)
and the reporters. -/
structure OffenceDetails where
  offender : Nat × Exposure
  reporters : List Nat
deriving DecidableEq, Repr

/-- `slashing::SlashParams`, the argument record of the external
`slashing::compute_slash`. -/
structure SlashParams where
  stash : Nat
  slash : Nat
  exposure : Exposure
  slash_era : Nat
  window_start : Nat
  now : Nat
  reward_proportion : Nat
  disable_strategy : DisableStrategy

/-- `Support` from `sp_npos_elections`: aggregate backing of one winner. -/
structure Support where
  total : Nat
  voters : List (Nat × Nat)
deriving DecidableEq, Repr

/-- Runtime configuration constants read by the embedded functions.
(`MinimumValidatorCount` and `HistoryDepth` are storage values in the pallet;
they are never written by the functions under study, so they live here.) -/
structure Config where
  sessionsPerEra : Nat
  minimumValidatorCount : Nat
  historyDepth : Nat
  maxNominatorRewardedPerValidator : Nat
  slashDeferDuration : Nat
  bondingDuration : Nat

/-- The pallet storage touched by the claims, plus logs for the effects the
source delegates to external collaborators (`slashing::apply_slash`, currency
deposits).  `activeEra` holds only the index of `ActiveEraInfo`; its `start`
timestamp is set in `on_finalize`, outside the studied code. -/
structure StakingState where
  currentEra : Option Nat
  activeEra : Option Nat
  erasStartSessionIndex : Nat → Option Nat
  forceEra : Forcing
  erasStakers : Nat → Nat → Option Exposure
  erasStakersClipped : Nat → Nat → Option Exposure
  erasValidatorPrefs : Nat → Nat → ValidatorPrefs
  erasValidatorReward : Nat → Option Nat
  erasRewardPoints : Nat → EraRewardPoints
  erasTotalStake : Nat → Nat
  validatorsPrefs : Nat → ValidatorPrefs
  bondedEras : List (Nat × Nat)
  earliestUnappliedSlash : Option Nat
  unappliedSlashes : Nat → List UnappliedSlash
  invulnerables : List Nat
  slashRewardFraction : Nat
  appliedSlashes : List UnappliedSlash
  bonded : Nat → Option Nat
  ledger : Nat → Option StakingLedger
  payee : Nat → RewardDestination
  accountExists : Nat → Bool
  deposits : List (Nat × Nat)

/-- `Pallet::clear_era_information`: remove every era-keyed record of the
given era (maps with a default value reset to that default). -/
def clear_era_information (st : StakingState) (eraIndex : Nat) : StakingState :=
  { st with
    erasStakers := fun e s => if e = eraIndex then none else st.erasStakers e s
    erasStakersClipped := fun e s => if e = eraIndex then none else st.erasStakersClipped e s
    erasValidatorPrefs := fun e s => if e = eraIndex then ⟨0, false⟩ else st.erasValidatorPrefs e s
    erasValidatorReward := fun e => if e = eraIndex then none else st.erasValidatorReward e
    erasRewardPoints := fun e => if e = eraIndex then ⟨0, []⟩ else st.erasRewardPoints e
    erasTotalStake := fun e => if e = eraIndex then 0 else st.erasTotalStake e
    erasStartSessionIndex := fun e => if e = eraIndex then none else st.erasStartSessionIndex e }

/-- The reward-clipping step of `store_stakers_info`: when the `others` list
is longer than the limit, stable-sort it by descending value
(`sort_by(|a, b| a.value.cmp(&b.value).reverse())`) and truncate. -/
def clipExposure (clippedMaxLen : Nat) (exposure : Exposure) : Exposure :=
  if exposure.others.length > clippedMaxLen then
    { exposure with
      others := (exposure.others.mergeSort fun a b => decide (b.value ≤ a.value)).take
        clippedMaxLen }
  else exposure

/-- One iteration of the exposure-storing loop of `store_stakers_info`:
accumulate the total stake, insert the full exposure into `ErasStakers` and
the reward-clipped copy into `ErasStakersClipped`. -/
def storeExposureStep (cfg : Config) (newPlannedEra : Nat)
    (a : StakingState × Nat) (se : Nat × Exposure) : StakingState × Nat :=
  let s := a.1
  let exposureClipped := clipExposure cfg.maxNominatorRewardedPerValidator se.2
  ({ s with
      erasStakers := fun e v =>
        if e = newPlannedEra ∧ v = se.1 then some se.2 else s.erasStakers e v
      erasStakersClipped := fun e v =>
        if e = newPlannedEra ∧ v = se.1 then some exposureClipped
        else s.erasStakersClipped e v },
   a.2 + se.2.total)

/-- One iteration of the prefs-collecting loop of `store_stakers_info`:
snapshot the winner's current `Validators` preferences. -/
def storePrefsStep (newPlannedEra : Nat) (s : StakingState) (stash : Nat) : StakingState :=
  { s with erasValidatorPrefs := fun e v =>
      if e = newPlannedEra ∧ v = stash then s.validatorsPrefs stash
      else s.erasValidatorPrefs e v }

/-- `Pallet::store_stakers_info`: persist the full exposure, the clipped
exposure, the era total stake and the validator-prefs snapshot for the new
planned era; return the elected stashes. -/
def store_stakers_info (cfg : Config) (st : StakingState)
    (exposures : List (Nat × Exposure)) (newPlannedEra : Nat) : StakingState × List Nat :=
  let electedStashes := exposures.map Prod.fst
  let acc := exposures.foldl (storeExposureStep cfg newPlannedEra) (st, 0)
  let s1 := { acc.1 with
    erasTotalStake := fun e => if e = newPlannedEra then acc.2 else acc.1.erasTotalStake e }
  (electedStashes.foldl (storePrefsStep newPlannedEra) s1, electedStashes)

/-- `Pallet::collect_exposures`: turn the solver's supports into exposures,
converting vote weights to currency through the external `CurrencyToVote`
collaborator `toCurrency`. -/
def collect_exposures (toCurrency : Nat → Nat) (supports : List (Nat × Support)) :
    List (Nat × Exposure) :=
  supports.map fun vs =>
    let acc := (vs.2.voters.map fun nw => (nw.1, toCurrency nw.2)).foldl
      (fun (a : Nat × List IndividualExposure × Nat) ns =>
        if ns.1 = vs.1 then (a.1 + ns.2, a.2.1, a.2.2 + ns.2)
        else (a.1, a.2.1 ++ [⟨ns.1, ns.2⟩], a.2.2 + ns.2))
      (0, [], 0)
    (vs.1, ⟨acc.2.2, acc.1, acc.2.1⟩)

/-- `Pallet::trigger_new_era`: bump (or initialise) `CurrentEra`, record the
start session of the new planned era, clear old era information, and store
the staking information. -/
def trigger_new_era (cfg : Config) (st : StakingState) (startSessionIndex : Nat)
    (exposures : List (Nat × Exposure)) : StakingState × List Nat :=
  let newPlannedEra := match st.currentEra with | some s => s + 1 | none => 0
  let st1 := { st with
    currentEra := some newPlannedEra
    erasStartSessionIndex := fun e =>
      if e = newPlannedEra then some startSessionIndex else st.erasStartSessionIndex e }
  let st2 :=
    if cfg.historyDepth + 1 ≤ newPlannedEra then
      clear_era_information st1 (newPlannedEra - (cfg.historyDepth + 1))
    else st1
  store_stakers_info cfg st2 exposures newPlannedEra

/-- `Pallet::try_trigger_new_era`: `electionResult` stands for the outcome of
the external election provider (`none` = solver error, already logged and
evented in the source).  On enough winners, delegate to `trigger_new_era`;
with too few winners, fail — except that an unset `CurrentEra` (genesis) is
initialised to era 0 with its start session recorded. -/
def try_trigger_new_era (cfg : Config) (st : StakingState) (startSessionIndex : Nat)
    (electionResult : Option (List (Nat × Support))) (toCurrency : Nat → Nat) :
    Option (List Nat) × StakingState :=
  match electionResult with
  | none => (none, st)
  | some supports =>
    let exposures := collect_exposures toCurrency supports
    if exposures.length < max cfg.minimumValidatorCount 1 then
      match st.currentEra with
      | some _ => (none, st)
      | none =>
          (none, { st with
            currentEra := some 0
            erasStartSessionIndex := fun e =>
              if e = 0 then some startSessionIndex else st.erasStartSessionIndex e })
    else
      let out := trigger_new_era cfg st startSessionIndex exposures
      (some out.2, out.1)

/-- `Pallet::new_session`: decide, from the forcing mode and the era length,
whether to attempt a new era; reset `ForceNew` to `NotForcing` after a
successful trigger. -/
def new_session (cfg : Config) (st : StakingState) (sessionIndex : Nat)
    (electionResult : Option (List (Nat × Support))) (toCurrency : Nat → Nat) :
    Option (List Nat) × StakingState :=
  match st.currentEra with
  | some currentEra =>
      let currentEraStartSessionIndex := (st.erasStartSessionIndex currentEra).getD 0
      let eraLength := sessionIndex - currentEraStartSessionIndex
      let proceed : Bool :=
        match st.forceEra with
        | Forcing.ForceNew => true
        | Forcing.ForceAlways => true
        | Forcing.NotForcing => decide (eraLength ≥ cfg.sessionsPerEra)
        | Forcing.ForceNone => false
      if proceed then
        let out := try_trigger_new_era cfg st sessionIndex electionResult toCurrency
        if out.1.isSome = true ∧ out.2.forceEra = Forcing.ForceNew then
          (out.1, { out.2 with forceEra := Forcing.NotForcing })
        else out
      else (none, st)
  | none => try_trigger_new_era cfg st sessionIndex electionResult toCurrency

/-- `Pallet::apply_unapplied_slashes`: with a set watermark, drain and apply
(`slashing::apply_slash`, logged in `appliedSlashes` and returned) every
queued slash of the eras in `[earliest, active_era - defer_duration)`, then
advance the watermark to `max earliest (active_era - defer_duration)`. -/
def apply_unapplied_slashes (cfg : Config) (st : StakingState) (activeEra : Nat) :
    StakingState × List UnappliedSlash :=
  match st.earliestUnappliedSlash with
  | none => (st, [])
  | some earliest =>
      let keepFrom := activeEra - cfg.slashDeferDuration
      let drained := (List.range' earliest (keepFrom - earliest)).flatMap st.unappliedSlashes
      ({ st with
          unappliedSlashes := fun e =>
            if earliest ≤ e ∧ e < keepFrom then [] else st.unappliedSlashes e
          earliestUnappliedSlash := some (max earliest keepFrom)
          appliedSlashes := st.appliedSlashes ++ drained },
       drained)

/-- `Pallet::start_era`: bump the active era, update the `BondedEras` window
(pruning entries older than `era - BondingDuration`; their
`slashing::clear_era_metadata` touches only unmodelled per-era slashing
metadata), and apply the due deferred slashes. -/
def start_era (cfg : Config) (st : StakingState) (startSession : Nat) : StakingState :=
  let newActive := match st.activeEra with | some i => i + 1 | none => 0
  let bonded := st.bondedEras ++ [(newActive, startSession)]
  let bonded2 :=
    if newActive > cfg.bondingDuration then
      bonded.drop (bonded.takeWhile fun p => p.1 < newActive - cfg.bondingDuration).length
    else bonded
  (apply_unapplied_slashes cfg { st with activeEra := some newActive, bondedEras := bonded2 }
    newActive).1

/-- Run `apply_unapplied_slashes` at the consecutive era starts
`firstEra, firstEra+1, …, firstEra+n-1` (active eras increase by exactly one
per `start_era`), collecting each step's applied slashes. -/
def runEraStarts (cfg : Config) : Nat → Nat → StakingState →
    StakingState × List (Nat × List UnappliedSlash)
  | _, 0, s => (s, [])
  | firstEra, n + 1, s =>
      let step := apply_unapplied_slashes cfg s firstEra
      let rest := runEraStarts cfg (firstEra + 1) n step.1
      (rest.1, (firstEra, step.2) :: rest.2)

/-- The slash-era resolution of `on_offence`: the active era when the report
session is within it, else the most recent bonded era whose first session is
at most the report session; `none` when the offence predates the bonding
window. -/
def resolveSlashEra (st : StakingState) (activeEra slashSession : Nat) : Option Nat :=
  let activeEraStartSessionIndex := (st.erasStartSessionIndex activeEra).getD 0
  if slashSession ≥ activeEraStartSessionIndex then some activeEra
  else
    match (st.bondedEras.reverse.filter fun p => p.2 ≤ slashSession).head? with
    | some p => some p.1
    | none => none

/-- One iteration of the offender loop of `on_offence`: skip invulnerable
stashes; otherwise compute the slash (external `slashing::compute_slash`),
set its reporters, and either apply it at once (zero defer duration) or push
it onto the pending queue keyed by the active era.  `base` carries the values
read once before the loop (invulnerables, slash reward fraction). -/
def onOffenceStep (cfg : Config) (computeSlash : SlashParams → Option UnappliedSlash)
    (base : StakingState) (activeEra slashEra : Nat) (disableStrategy : DisableStrategy)
    (s : StakingState) (off : OffenceDetails × Nat) : StakingState :=
  if off.1.offender.1 ∈ base.invulnerables then s
  else
    match computeSlash
        ⟨off.1.offender.1, off.2, off.1.offender.2, slashEra,
          activeEra - cfg.bondingDuration, activeEra, base.slashRewardFraction,
          disableStrategy⟩ with
    | some unapplied0 =>
        let unapplied := { unapplied0 with reporters := off.1.reporters }
        if cfg.slashDeferDuration = 0 then
          { s with appliedSlashes := s.appliedSlashes ++ [unapplied] }
        else
          { s with unappliedSlashes := fun e =>
              if e = activeEra then s.unappliedSlashes e ++ [unapplied]
              else s.unappliedSlashes e }
    | none => s

/-- The `EarliestUnappliedSlash::mutate` of `on_offence`: initialise the
watermark to the active era when it is unset. -/
def withWatermark (st : StakingState) (activeEra : Nat) : StakingState :=
  { st with earliestUnappliedSlash :=
      match st.earliestUnappliedSlash with
      | none => some activeEra
      | some w => some w }

/-- `OnOffenceHandler::on_offence`.  `computeSlash` stands for the external
`slashing::compute_slash`.  After resolving the slash era, the watermark is
initialised to the *active* era when unset; the offenders are then folded
with `onOffenceStep`. -/
def on_offence (cfg : Config) (computeSlash : SlashParams → Option UnappliedSlash)
    (st : StakingState) (offenders : List OffenceDetails) (slashFractions : List Nat)
    (slashSession : Nat) (disableStrategy : DisableStrategy) : StakingState :=
  match st.activeEra with
  | none => st
  | some activeEra =>
    match resolveSlashEra st activeEra slashSession with
    | none => st
    | some slashEra =>
      (offenders.zip slashFractions).foldl
        (onOffenceStep cfg computeSlash (withWatermark st activeEra) activeEra slashEra
          disableStrategy)
        (withWatermark st activeEra)

/-- The list of slash records that the offender loop of `on_offence`
enqueues or applies: one per non-invulnerable offender for which
`compute_slash` returns a record, with the reporters filled in. -/
def computedSlashes (cfg : Config) (computeSlash : SlashParams → Option UnappliedSlash)
    (base : StakingState) (activeEra slashEra : Nat) (disableStrategy : DisableStrategy)
    (pairs : List (OffenceDetails × Nat)) : List UnappliedSlash :=
  pairs.filterMap fun off =>
    if off.1.offender.1 ∈ base.invulnerables then none
    else
      (computeSlash
          ⟨off.1.offender.1, off.2, off.1.offender.2, slashEra,
            activeEra - cfg.bondingDuration, activeEra, base.slashRewardFraction,
            disableStrategy⟩).map
        fun u => { u with reporters := off.1.reporters }

/-- One billion: the accuracy of `Perbill`. -/
def perbillAccuracy : Nat := 1000000000

/-- Modelled from the spec: `Perbill::from_rational` lives in the external
`sp_arithmetic` crate ("saturating rational arithmetic"); it clamps the
numerator to the denominator (and the denominator to at least one) and
rounds down. -/
def perbillFromRational (p q : Nat) : Nat :=
  min p (max q 1) * perbillAccuracy / max q 1

/-- Modelled from the spec: multiplication of a `Perbill` by a balance, with
the spec's floor-per-recipient rounding (`sp_arithmetic` is external). -/
def perbillMul (parts x : Nat) : Nat :=
  parts * x / perbillAccuracy

/-- The error cases of `do_payout_stakers`. -/
inductive PayoutError where
  | InvalidEraToReward
  | NotStash
  | NotController
  | AlreadyClaimed
deriving DecidableEq, Repr

/-- `Pallet::make_payout`: pay `amount` to the staker's configured reward
destination.  Currency deposits are logged in `deposits`;
`deposit_into_existing` succeeds only for existing accounts
(`accountExists`); the `Staked` arm re-reads and rewrites the ledger
(increasing `active` and `total`) whether or not the deposit succeeded, as in
the source. -/
def make_payout (st : StakingState) (stash amount : Nat) : Option Nat × StakingState :=
  match st.payee stash with
  | RewardDestination.Controller =>
      match st.bonded stash with
      | some controller =>
          (some amount, { st with deposits := st.deposits ++ [(controller, amount)] })
      | none => (none, st)
  | RewardDestination.Stash =>
      if st.accountExists stash then
        (some amount, { st with deposits := st.deposits ++ [(stash, amount)] })
      else (none, st)
  | RewardDestination.Staked =>
      match st.bonded stash with
      | some controller =>
          match st.ledger controller with
          | some l =>
              let l2 := { l with active := l.active + amount, total := l.total + amount }
              let deposited := st.accountExists stash
              ((if deposited then some amount else none),
               { st with
                  ledger := fun c => if c = controller then some l2 else st.ledger c
                  deposits :=
                    if deposited then st.deposits ++ [(stash, amount)] else st.deposits })
          | none => (none, st)
      | none => (none, st)
  | RewardDestination.Account dest =>
      (some amount, { st with deposits := st.deposits ++ [(dest, amount)] })
  | RewardDestination.None => (none, st)

/-- The nominator loop of `do_payout_stakers`: pay each (reward-clipped)
nominator its exposure fraction of the leftover payout. -/
def payoutNominators (validatorLeftoverPayout total : Nat)
    (others : List IndividualExposure) (s : StakingState) : StakingState :=
  others.foldl
    (fun s2 nom =>
      (make_payout s2 nom.who
        (perbillMul (perbillFromRational nom.value total) validatorLeftoverPayout)).2)
    s

/-- `Pallet::do_payout_stakers`.  The `claimed_rewards` list is kept sorted
by the pallet; `binary_search` is therefore modelled by sorted membership and
the hit of its `Err(pos)` insertion by `List.orderedInsert`.  Note that the
pruned-and-extended ledger is written back *before* the zero-points early
return. -/
def do_payout_stakers (cfg : Config) (st : StakingState) (validatorStash era : Nat) :
    Except PayoutError StakingState :=
  match st.currentEra with
  | none => Except.error PayoutError.InvalidEraToReward
  | some currentEra =>
    if ¬ (era ≤ currentEra ∧ currentEra - cfg.historyDepth ≤ era) then
      Except.error PayoutError.InvalidEraToReward
    else
      match st.erasValidatorReward era with
      | none => Except.error PayoutError.InvalidEraToReward
      | some eraPayout =>
        match st.bonded validatorStash with
        | none => Except.error PayoutError.NotStash
        | some controller =>
          match st.ledger controller with
          | none => Except.error PayoutError.NotController
          | some ledger0 =>
            let pruned :=
              ledger0.claimed_rewards.filter fun x => currentEra - cfg.historyDepth ≤ x
            if era ∈ pruned then Except.error PayoutError.AlreadyClaimed
            else
              let ledger1 :=
                { ledger0 with claimed_rewards := List.orderedInsert (· ≤ ·) era pruned }
              let exposure := (st.erasStakersClipped era ledger1.stash).getD ⟨0, 0, []⟩
              let st1 := { st with
                ledger := fun c => if c = controller then some ledger1 else st.ledger c }
              let points := st.erasRewardPoints era
              let validatorRewardPoints := (points.individual.lookup ledger1.stash).getD 0
              if validatorRewardPoints = 0 then Except.ok st1
              else
                let validatorTotalRewardPart :=
                  perbillFromRational validatorRewardPoints points.total
                let validatorTotalPayout := perbillMul validatorTotalRewardPart eraPayout
                let prefs := st1.erasValidatorPrefs era validatorStash
                let validatorCommissionPayout := perbillMul prefs.commission validatorTotalPayout
                let validatorLeftoverPayout := validatorTotalPayout - validatorCommissionPayout
                let validatorExposurePart := perbillFromRational exposure.own exposure.total
                let validatorStakingPayout :=
                  perbillMul validatorExposurePart validatorLeftoverPayout
                let st2 := (make_payout st1 ledger1.stash
                  (validatorStakingPayout + validatorCommissionPayout)).2
                Except.ok
                  (payoutNominators validatorLeftoverPayout exposure.total exposure.others st2)

/-- `<UseNominatorsMap as SortedListProvider>::clear`.  `remove_all(Some n)`
removes up to `n` map entries in iteration order (modelled by `List.drop`).
The counter update `CounterForNominators::mutate(|noms| *noms - count)`
evaluates the `u32` subtraction `counter - n` — which panics on underflow,
modelled as `none`, since the runtime builds with overflow checks — but the
closure never assigns through the `&mut` reference, so `mutate` writes the
counter back unchanged.  `clear(None)` removes everything and `take`s the
counter (resetting it to the default 0 and returning the old value).
Returns `(remaining nominators, stored counter, returned count)`. -/
def useNominatorsMap_clear (nominators : List Nat) (counter : Nat)
    (maybeCount : Option Nat) : Option (List Nat × Nat × Nat) :=
  match maybeCount with
  | some n => if n ≤ counter then some (nominators.drop n, counter, n) else none
  | none => some ([], 0, counter)

/-! Concrete states used by counterexamples and witnesses. -/

/-- A registry with no validators and two nominators: nominator 1 holds three
nominations that are all stale (submitted in era 0, before the targets' last
non-zero slash in era 5), nominator 2 holds one fresh nomination. -/
def c9State : VotersState where
  validators := []
  sortedListIter := [1, 2]
  nominatorsMap := fun n =>
    if n = 1 then some ⟨[11, 12, 13], 0, false⟩
    else if n = 2 then some ⟨[11], 10, false⟩ else none
  slashingSpans := fun s => if s = 11 ∨ s = 12 ∨ s = 13 then some 5 else none
  weightOf := fun _ => 100
  aid := 8

/-- The same registry without the stale nominator 1. -/
def c9StateNoStale : VotersState := { c9State with sortedListIter := [2] }

/-- A byte-size-only bound of 50 bytes. -/
def c9Bounds : SnapshotBounds := ⟨some 50, none⟩

/-- A registry with a single validator and no nominators. -/
def c1State : VotersState where
  validators := [7]
  sortedListIter := []
  nominatorsMap := fun _ => none
  slashingSpans := fun _ => none
  weightOf := fun _ => 100
  aid := 8

/-- A staking state with every storage item empty or at its default. -/
def baseState : StakingState where
  currentEra := none
  activeEra := none
  erasStartSessionIndex := fun _ => none
  forceEra := Forcing.NotForcing
  erasStakers := fun _ _ => none
  erasStakersClipped := fun _ _ => none
  erasValidatorPrefs := fun _ _ => ⟨0, false⟩
  erasValidatorReward := fun _ => none
  erasRewardPoints := fun _ => ⟨0, []⟩
  erasTotalStake := fun _ => 0
  validatorsPrefs := fun _ => ⟨0, false⟩
  bondedEras := []
  earliestUnappliedSlash := none
  unappliedSlashes := fun _ => []
  invulnerables := []
  slashRewardFraction := 0
  appliedSlashes := []
  bonded := fun _ => none
  ledger := fun _ => none
  payee := fun _ => RewardDestination.Staked
  accountExists := fun _ => true
  deposits := []

/-- A sample configuration. -/
def cfgA : Config where
  sessionsPerEra := 6
  minimumValidatorCount := 0
  historyDepth := 84
  maxNominatorRewardedPerValidator := 64
  slashDeferDuration := 1
  bondingDuration := 28

/-- State for the C6 counterexample: era 0 is current, started at session 0,
and the forcing mode is `ForceAlways`. -/
def c6State : StakingState :=
  { baseState with
    currentEra := some 0
    erasStartSessionIndex := fun e => if e = 0 then some 0 else none
    forceEra := Forcing.ForceAlways }

/-- A solver outcome with one winner (account 1, self-supported). -/
def oneWinner : Option (List (Nat × Support)) := some [(1, ⟨10, [(1, 10)]⟩)]

/-- State for the C4 counterexample: active era 2 started at session 10, with
the bonded-eras window recording eras 0, 1, 2. -/
def c4State : StakingState :=
  { baseState with
    activeEra := some 2
    erasStartSessionIndex := fun e => if e = 2 then some 10 else none
    bondedEras := [(0, 0), (1, 5), (2, 10)] }

/-- An external `compute_slash` that always produces a minimal slash record
for the reported stash. -/
def alwaysSlash : SlashParams → Option UnappliedSlash :=
  fun p => some ⟨p.stash, 1, [], [], 0⟩

/-- State for the C5 theorems: current era 10 with an era-10 payout recorded
and validator stash 1 bonded to controller 2 (no reward points). -/
def c5State : StakingState :=
  { baseState with
    currentEra := some 10
    erasValidatorReward := fun e => if e = 10 then some 100 else none
    bonded := fun s => if s = 1 then some 2 else none
    ledger := fun c => if c = 2 then some ⟨1, 50, 50, [], []⟩ else none }

/-- Fold a sequence of successful `trigger_new_era` calls over a state; each
input is a start-session index together with the exposures of that era's
election. -/
def iterateTriggers (cfg : Config) (inputs : List (Nat × List (Nat × Exposure)))
    (st : StakingState) : StakingState :=
  inputs.foldl (fun s p => (trigger_new_era cfg s p.1 p.2).1) st

/-- State for the C6 witness: like `c6State` but with `ForceNew` forcing. -/
def c6StateForceNew : StakingState := { c6State with forceEra := Forcing.ForceNew }

/-! Theorems.  Each claim has exactly one theorem, stated below with its
claim id; shared helper lemmas precede them. -/

/-- C8: `exhausts_size_count_non_zero` returns `false` whenever the given
size is 1 or the given count is 0, no matter how small the configured
bounds; otherwise it is `true` iff the given size exceeds a configured size
bound or the given count exceeds a configured count bound. -/
theorem c8_exhausts_size_count_non_zero_spec (b : SnapshotBounds) (gs gc : Nat) :
    ((gs = 1 ∨ gc = 0) → b.exhausts_size_count_non_zero gs gc = false) ∧
      (gs ≠ 1 → gc ≠ 0 →
        (b.exhausts_size_count_non_zero gs gc = true ↔
          (∃ s, b.size = some s ∧ s < gs) ∨ ∃ c, b.count = some c ∧ c < gc)) := by
  constructor
  · intro h
    simp only [SnapshotBounds.exhausts_size_count_non_zero, if_pos h]
  · intro h1 h2
    simp only [SnapshotBounds.exhausts_size_count_non_zero, SnapshotBounds.size_exhausted,
      SnapshotBounds.count_exhausted]
    rw [if_neg (by tauto)]
    cases hs : b.size <;> cases hc : b.count <;>
      simp [hs, hc, Nat.lt_iff_add_one_le]

/-- Witness for C8 at concrete inputs. -/
theorem c8_witness :
    (SnapshotBounds.mk (some 0) (some 0)).exhausts_size_count_non_zero 1 0 = false ∧
      (SnapshotBounds.mk (some 3) none).exhausts_size_count_non_zero 5 2 = true :=
  ⟨(c8_exhausts_size_count_non_zero_spec ⟨some 0, some 0⟩ 1 0).1 (Or.inl rfl),
   ((c8_exhausts_size_count_non_zero_spec ⟨some 3, none⟩ 5 2).2 (by decide) (by decide)).mpr
     (Or.inl ⟨3, rfl, by decide⟩)⟩

/-- C9: nominator 1's unfiltered nominations are nonempty but all stale
(filtered to nothing), so it contributes no voter record; yet with it in the
traversal the 50-byte bound is consumed and the returned voter list is empty,
while without it the later fresh nominator 2 is returned. -/
theorem c9_stale_nominator_consumes_budget :
    c9State.nominatorsMap 1 = some ⟨[11, 12, 13], 0, false⟩ ∧
      filterStale c9State 0 [11, 12, 13] = [] ∧
      get_npos_voters_bounded c9State c9Bounds = [] ∧
      get_npos_voters_bounded c9StateNoStale c9Bounds = [(2, 100, [11])] := by
  refine ⟨rfl, by decide, by decide, by decide⟩

/-- C10 counterexample: `clear(Some 2)` on a counter of 5 leaves the stored
counter at 5 — the closure's subtraction result is discarded by `mutate` —
while the claim says it would be decreased to 3. -/
theorem c10_counterexample :
    useNominatorsMap_clear [10, 20, 30] 5 (some 2) = some ([30], 5, 2) ∧
      (5 : Nat) ≠ 5 - 2 := by
  refine ⟨by decide, by decide⟩

/-- C10 (amended): `clear(Some n)` removes up to `n` nominators and evaluates
the unguarded `u32` subtraction `counter - n`, whose result is discarded, so
the stored counter is unchanged; the call is well-defined only under the
precondition `n ≤ counter`, and for every `n` exceeding the counter the
subtraction underflows. -/
theorem c10_clear_counter (nominators : List Nat) (counter n : Nat) :
    (n ≤ counter →
      useNominatorsMap_clear nominators counter (some n) =
        some (nominators.drop n, counter, n)) ∧
      (counter < n → useNominatorsMap_clear nominators counter (some n) = none) := by
  refine ⟨fun h => ?_, fun h => ?_⟩ <;>
    simp [useNominatorsMap_clear, h]

/-- Witness for C10 at concrete inputs. -/
theorem c10_clear_counter_witness :
    useNominatorsMap_clear [4, 5, 6] 3 (some 2) = some ([6], 3, 2) ∧
      useNominatorsMap_clear [4, 5, 6] 3 (some 7) = none :=
  ⟨(c10_clear_counter [4, 5, 6] 3 2).1 (by decide),
   (c10_clear_counter [4, 5, 6] 3 7).2 (by decide)⟩

/-- C1 counterexample: byte bound `B = 0` with one validator — a nonempty
unfiltered candidate set — yields an empty voter list whose SCALE encoding
is 1 byte, exceeding `B`. -/
theorem c1_counterexample :
    c1State.validators ≠ [] ∧
      get_npos_voters_bounded c1State ⟨some 0, none⟩ = [] ∧
      votersEncodedSize c1State.aid (get_npos_voters_bounded c1State ⟨some 0, none⟩) = 1 ∧
      ¬ votersEncodedSize c1State.aid (get_npos_voters_bounded c1State ⟨some 0, none⟩) ≤ 0 := by
  refine ⟨by decide, by decide, by decide, by decide⟩

/-- C2 counterexample: at genesis (`CurrentEra` unset) a trigger attempt
whose election succeeds with zero winners fails (returns no validator set)
yet sets the era counter to 0. -/
theorem c2_counterexample :
    baseState.currentEra = none ∧
      (try_trigger_new_era cfgA baseState 5 (some []) id).1 = none ∧
      (try_trigger_new_era cfgA baseState 5 (some []) id).2.currentEra = some 0 := by
  refine ⟨rfl, rfl, rfl⟩

/-- C6 counterexample: a successful trigger under `ForceAlways` leaves the
forcing mode at `ForceAlways`; only `ForceNew` is reset. -/
theorem c6_counterexample :
    (new_session cfgA c6State 5 oneWinner id).1.isSome = true ∧
      (new_session cfgA c6State 5 oneWinner id).2.forceEra = Forcing.ForceAlways ∧
      Forcing.ForceAlways ≠ Forcing.NotForcing := by
  refine ⟨rfl, rfl, by decide⟩

/-- C4 counterexample: an offence reported at session 3 resolves to slash era
0, but the slash is enqueued under the active era 2 and the watermark is set
to 2 (the active era), not to the offence's era. -/
theorem c4_counterexample :
    resolveSlashEra c4State 2 3 = some 0 ∧
      (on_offence cfgA alwaysSlash c4State [⟨(7, ⟨0, 0, []⟩), []⟩] [500] 3
          DisableStrategy.WhenSlashed).unappliedSlashes 0 = [] ∧
      (on_offence cfgA alwaysSlash c4State [⟨(7, ⟨0, 0, []⟩), []⟩] [500] 3
          DisableStrategy.WhenSlashed).unappliedSlashes 2 = [⟨7, 1, [], [], 0⟩] ∧
      (on_offence cfgA alwaysSlash c4State [⟨(7, ⟨0, 0, []⟩), []⟩] [500] 3
          DisableStrategy.WhenSlashed).earliestUnappliedSlash = some 2 ∧
      (0 : Nat) ≠ 2 := by
  refine ⟨by decide, by decide, by decide, by decide, by decide⟩

/-- C5 counterexample: with zero reward points the payout call returns
success but is not a no-op — the controller's claimed-rewards list gains the
era before the zero-points early return. -/
theorem c5_counterexample :
    ((c5State.erasRewardPoints 10).individual.lookup 1).getD 0 = 0 ∧
      (do_payout_stakers cfgA c5State 1 10).map
          (fun s => (s.ledger 2).map StakingLedger.claimed_rewards) =
        Except.ok (some [10]) ∧
      (c5State.ledger 2).map StakingLedger.claimed_rewards = some [] ∧
      (some [10] : Option (List Nat)) ≠ some [] := by
  refine ⟨rfl, rfl, rfl, by decide⟩

/-! Helper lemmas for the snapshot byte bound (C1). -/

theorem lengthPrefixBytes_mono {a b : Nat} (hab : a ≤ b) (hb : b < 2 ^ 32) :
    lengthPrefixBytes a ≤ lengthPrefixBytes b := by
  have ha' : a % 2 ^ 32 = a := Nat.mod_eq_of_lt (lt_of_le_of_lt hab hb)
  have hb' : b % 2 ^ 32 = b := Nat.mod_eq_of_lt hb
  unfold lengthPrefixBytes compactU32Size
  rw [ha', hb']
  split_ifs <;> omega

theorem lengthPrefixBytes_pos (n : Nat) : 1 ≤ lengthPrefixBytes n := by
  unfold lengthPrefixBytes compactU32Size
  split_ifs <;> omega

theorem voterSize_mono {aid a b : Nat} (hab : a ≤ b) (hb : b < 2 ^ 32) :
    voterSize aid a ≤ voterSize aid b := by
  have h1 := lengthPrefixBytes_mono hab hb
  have h2 : a * aid ≤ b * aid := Nat.mul_le_mul_right aid hab
  unfold voterSize
  omega

theorem votes_mul_le_voterSize (aid votes : Nat) : votes * aid ≤ voterSize aid votes := by
  unfold voterSize
  omega

theorem voterEncodedBytes_eq_voterSize (aid : Nat) (v : Voter) :
    voterEncodedBytes aid v = voterSize aid v.2.2.length := by
  unfold voterEncodedBytes voterSize
  omega

theorem votersInternalSize_append_singleton (aid : Nat) (l : List Voter) (v : Voter) :
    votersInternalSize aid (l ++ [v]) = votersInternalSize aid l + voterEncodedBytes aid v := by
  unfold votersInternalSize
  simp

theorem votersInternalSize_append_voter (aid : Nat) (l : List Voter) (a w : Nat)
    (ts : List Nat) :
    votersInternalSize aid (l ++ [(a, w, ts)]) =
      votersInternalSize aid l + voterSize aid ts.length := by
  rw [votersInternalSize_append_singleton, voterEncodedBytes_eq_voterSize]

theorem nextWillExhaust_size_le {bounds : SnapshotBounds} {B tracker len : Nat}
    (hB : bounds.size = some B) (h : nextWillExhaust bounds tracker len = false) :
    tracker + lengthPrefixBytes (len + 1) ≤ B := by
  unfold nextWillExhaust finalByteSizeOf at h
  rcases hc : bounds.count with _ | c <;> rw [hB, hc] at h <;> simp at h <;> omega

theorem addVoterTracker_size {bounds : SnapshotBounds} {B : Nat} (aid tracker votes : Nat)
    (hB : bounds.size = some B) :
    addVoterTracker bounds aid tracker votes = tracker + voterSize aid votes := by
  unfold addVoterTracker
  rw [hB]

theorem validatorsLoop_cons (st : VotersState) (bounds : SnapshotBounds)
    (v : Nat) (rest : List Nat) (tracker : Nat) (voters : List Voter) :
    validatorsLoop st bounds (v :: rest) tracker voters =
      if nextWillExhaust bounds (addVoterTracker bounds st.aid tracker 1) voters.length then
        (addVoterTracker bounds st.aid tracker 1, voters)
      else
        validatorsLoop st bounds rest (addVoterTracker bounds st.aid tracker 1)
          (voters ++ [(v, st.weightOf v, [v])]) := by
  simp only [validatorsLoop]

theorem nominatorsLoop_cons_none {st : VotersState} {bounds : SnapshotBounds}
    {n : Nat} (rest : List Nat) (tracker : Nat) (voters : List Voter)
    (hn : st.nominatorsMap n = none) :
    nominatorsLoop st bounds (n :: rest) tracker voters =
      nominatorsLoop st bounds rest tracker voters := by
  simp only [nominatorsLoop, hn]

theorem nominatorsLoop_cons_some {st : VotersState} {bounds : SnapshotBounds}
    {n : Nat} {noms : Nominations} (rest : List Nat) (tracker : Nat) (voters : List Voter)
    (hn : st.nominatorsMap n = some noms) :
    nominatorsLoop st bounds (n :: rest) tracker voters =
      if nextWillExhaust bounds (addVoterTracker bounds st.aid tracker noms.targets.length)
          voters.length then
        (addVoterTracker bounds st.aid tracker noms.targets.length, voters)
      else if (filterStale st noms.submitted_in noms.targets).length ≠ 0 then
        nominatorsLoop st bounds rest
          (addVoterTracker bounds st.aid tracker noms.targets.length)
          (voters ++ [(n, st.weightOf n, filterStale st noms.submitted_in noms.targets)])
      else
        nominatorsLoop st bounds rest
          (addVoterTracker bounds st.aid tracker noms.targets.length) voters := by
  simp only [nominatorsLoop, hn]

theorem nominatorsLoop_bounded {st : VotersState} {bounds : SnapshotBounds} {B : Nat}
    (hB : bounds.size = some B) (hB32 : B < 2 ^ 32) (haid : 1 ≤ st.aid) :
    ∀ (ns : List Nat) (tracker : Nat) (voters : List Voter),
      votersInternalSize st.aid voters ≤ tracker →
      votersEncodedSize st.aid voters ≤ max B 1 →
      votersInternalSize st.aid (nominatorsLoop st bounds ns tracker voters).2 ≤
          (nominatorsLoop st bounds ns tracker voters).1 ∧
        votersEncodedSize st.aid (nominatorsLoop st bounds ns tracker voters).2 ≤ max B 1 := by
  intro ns
  induction ns with
  | nil =>
      intro tracker voters h1 h2
      exact ⟨h1, h2⟩
  | cons n rest ih =>
      intro tracker voters h1 h2
      cases hn : st.nominatorsMap n with
      | none =>
          rw [nominatorsLoop_cons_none rest tracker voters hn]
          exact ih tracker voters h1 h2
      | some noms =>
          rw [nominatorsLoop_cons_some rest tracker voters hn,
            addVoterTracker_size st.aid tracker noms.targets.length hB]
          by_cases hex :
            nextWillExhaust bounds (tracker + voterSize st.aid noms.targets.length)
              voters.length = true
          · rw [if_pos hex]
            exact ⟨le_trans h1 (Nat.le_add_right _ _), h2⟩
          · have hex' :
                nextWillExhaust bounds (tracker + voterSize st.aid noms.targets.length)
                  voters.length = false := by
              simpa using hex
            rw [if_neg (by simp [hex'])]
            have hfin :=
              nextWillExhaust_size_le hB hex'
            have hp := lengthPrefixBytes_pos (voters.length + 1)
            by_cases hne : (filterStale st noms.submitted_in noms.targets).length ≠ 0
            · rw [if_pos hne]
              have hlen : (filterStale st noms.submitted_in noms.targets).length ≤
                  noms.targets.length := by
                unfold filterStale
                exact List.length_filter_le _ _
              have htl32 : noms.targets.length < 2 ^ 32 := by
                have hv := votes_mul_le_voterSize st.aid noms.targets.length
                have hm : noms.targets.length * 1 ≤ noms.targets.length * st.aid :=
                  Nat.mul_le_mul (le_refl _) haid
                omega
              have hmono :
                  voterSize st.aid (filterStale st noms.submitted_in noms.targets).length ≤
                    voterSize st.aid noms.targets.length :=
                voterSize_mono hlen htl32
              refine ih (tracker + voterSize st.aid noms.targets.length)
                (voters ++ [(n, st.weightOf n, filterStale st noms.submitted_in noms.targets)])
                ?_ ?_
              · rw [votersInternalSize_append_voter]
                omega
              · unfold votersEncodedSize
                rw [votersInternalSize_append_voter]
                simp only [List.length_append, List.length_cons, List.length_nil, Nat.zero_add]
                have hmax : B ≤ max B 1 := le_max_left B 1
                omega
            · rw [if_neg hne]
              exact ih (tracker + voterSize st.aid noms.targets.length) voters
                (le_trans h1 (Nat.le_add_right _ _)) h2

theorem validatorsLoop_bounded {st : VotersState} {bounds : SnapshotBounds} {B : Nat}
    (hB : bounds.size = some B) :
    ∀ (vs : List Nat) (tracker : Nat) (voters : List Voter),
      votersInternalSize st.aid voters ≤ tracker →
      votersEncodedSize st.aid voters ≤ max B 1 →
      votersInternalSize st.aid (validatorsLoop st bounds vs tracker voters).2 ≤
          (validatorsLoop st bounds vs tracker voters).1 ∧
        votersEncodedSize st.aid (validatorsLoop st bounds vs tracker voters).2 ≤ max B 1 := by
  intro vs
  induction vs with
  | nil =>
      intro tracker voters h1 h2
      exact ⟨h1, h2⟩
  | cons v rest ih =>
      intro tracker voters h1 h2
      rw [validatorsLoop_cons, addVoterTracker_size st.aid tracker 1 hB]
      by_cases hex :
        nextWillExhaust bounds (tracker + voterSize st.aid 1) voters.length = true
      · rw [if_pos hex]
        exact ⟨le_trans h1 (Nat.le_add_right _ _), h2⟩
      · have hex' :
            nextWillExhaust bounds (tracker + voterSize st.aid 1) voters.length = false := by
          simpa using hex
        rw [if_neg (by simp [hex'])]
        have hfin := nextWillExhaust_size_le hB hex'
        refine ih (tracker + voterSize st.aid 1) (voters ++ [(v, st.weightOf v, [v])]) ?_ ?_
        · rw [votersInternalSize_append_voter]
          simp only [List.length_singleton]
          omega
        · unfold votersEncodedSize
          rw [votersInternalSize_append_voter]
          simp only [List.length_singleton]
          simp only [List.length_append, List.length_cons, List.length_nil, Nat.zero_add]
          have hmax : B ≤ max B 1 := le_max_left B 1
          omega

/-- C1 (amended): under a byte bound `B`, the SCALE-encoded size of the
returned voter list is at most `max B 1` — it can exceed `B` only in the
empty-list case (1 byte), and not merely when the unfiltered candidate set is
empty.  The tracker's predicted final size is an upper bound on (not always
equal to) the real encoded size, since unfiltered vote counts are registered
for voters that the stale filter later shrinks or drops, and every append is
guarded by the predicted-final-size check. -/
theorem c1_voters_size_bounded (st : VotersState) (bounds : SnapshotBounds) (B : Nat)
    (hB : bounds.size = some B) (hB32 : B < 2 ^ 32) (haid : 1 ≤ st.aid) :
    votersEncodedSize st.aid (get_npos_voters_bounded st bounds) ≤ max B 1 := by
  unfold get_npos_voters_bounded
  have base1 : votersInternalSize st.aid ([] : List Voter) ≤ 0 := le_refl _
  have base2 : votersEncodedSize st.aid ([] : List Voter) ≤ max B 1 := by
    unfold votersEncodedSize votersInternalSize
    simp [lengthPrefixBytes]
  have hval := validatorsLoop_bounded hB st.validators 0 [] base1 base2
  by_cases hex :
    nextWillExhaust bounds (validatorsLoop st bounds st.validators 0 []).1
      (validatorsLoop st bounds st.validators 0 []).2.length = true
  · simpa [hex] using hval.2
  · have hex' :
        nextWillExhaust bounds (validatorsLoop st bounds st.validators 0 []).1
          (validatorsLoop st bounds st.validators 0 []).2.length = false := by
      simpa using hex
    have := nominatorsLoop_bounded hB hB32 haid st.sortedListIter
      (validatorsLoop st bounds st.validators 0 []).1
      (validatorsLoop st bounds st.validators 0 []).2 hval.1 hval.2
    simpa [hex'] using this.2

/-- Witness for C1 at a concrete bounded state. -/
theorem c1_voters_size_bounded_witness :
    votersEncodedSize c9State.aid (get_npos_voters_bounded c9State ⟨some 50, none⟩) ≤
      max 50 1 :=
  c1_voters_size_bounded c9State ⟨some 50, none⟩ 50 rfl (by decide) (by decide)

/-! Helper lemmas for the exposure storage and clipping (C7). -/

theorem foldl_invariant {α σ : Type _} (f : σ → α → σ) (P : σ → Prop) :
    ∀ (l : List α) (s : σ), (∀ s' a, a ∈ l → P s' → P (f s' a)) → P s → P (l.foldl f s) := by
  intro l
  induction l with
  | nil => intro s _ hs; exact hs
  | cons a rest ih =>
      intro s hf hs
      exact ih (f s a) (fun s' b hb => hf s' b (List.mem_cons_of_mem a hb))
        (hf s a (List.mem_cons_self a rest) hs)

theorem storeExposureStep_hit (cfg : Config) (era : Nat) (a : StakingState × Nat)
    (s0 : Nat) (e0 : Exposure) :
    (storeExposureStep cfg era a (s0, e0)).1.erasStakers era s0 = some e0 ∧
      (storeExposureStep cfg era a (s0, e0)).1.erasStakersClipped era s0 =
        some (clipExposure cfg.maxNominatorRewardedPerValidator e0) := by
  constructor <;> simp [storeExposureStep]

theorem storeExposureStep_miss (cfg : Config) (era : Nat) (a : StakingState × Nat)
    (se : Nat × Exposure) (stash : Nat) (hne : se.1 ≠ stash) :
    (storeExposureStep cfg era a se).1.erasStakers era stash = a.1.erasStakers era stash ∧
      (storeExposureStep cfg era a se).1.erasStakersClipped era stash =
        a.1.erasStakersClipped era stash := by
  have hne' : stash ≠ se.1 := fun h => hne h.symm
  constructor <;> simp [storeExposureStep, hne']

theorem storeFold_lookup (cfg : Config) (era : Nat) :
    ∀ (exposures : List (Nat × Exposure)) (a : StakingState × Nat) (stash : Nat)
      (e : Exposure),
      (stash, e) ∈ exposures → (exposures.map Prod.fst).Nodup →
      (exposures.foldl (storeExposureStep cfg era) a).1.erasStakers era stash = some e ∧
        (exposures.foldl (storeExposureStep cfg era) a).1.erasStakersClipped era stash =
          some (clipExposure cfg.maxNominatorRewardedPerValidator e) := by
  intro exposures
  induction exposures with
  | nil => intro a stash e hmem; exact absurd hmem (List.not_mem_nil _)
  | cons se rest ih =>
      intro a stash e hmem hnodup
      rw [List.map_cons, List.nodup_cons] at hnodup
      rw [List.foldl_cons]
      rcases List.mem_cons.mp hmem with heq | hmem'
      · have hse : se = (stash, e) := heq.symm
        subst hse
        have hnotin : stash ∉ rest.map Prod.fst := hnodup.1
        refine foldl_invariant (storeExposureStep cfg era)
          (fun acc =>
            acc.1.erasStakers era stash = some e ∧
              acc.1.erasStakersClipped era stash =
                some (clipExposure cfg.maxNominatorRewardedPerValidator e))
          rest _ ?_ ?_
        · intro s' b hb hP
          have hbne : b.1 ≠ stash := by
            intro hcontra
            exact hnotin (hcontra ▸ List.mem_map_of_mem Prod.fst hb)
          have := storeExposureStep_miss cfg era s' b stash hbne
          exact ⟨this.1.trans hP.1, this.2.trans hP.2⟩
        · exact storeExposureStep_hit cfg era a stash e
      · exact ih (storeExposureStep cfg era a se) stash e hmem' hnodup.2

theorem clipExposure_of_le {maxLen : Nat} {e : Exposure}
    (h : e.others.length ≤ maxLen) : clipExposure maxLen e = e := by
  unfold clipExposure
  rw [if_neg (by omega)]

theorem descValue_trans (a b c : IndividualExposure)
    (h1 : decide (b.value ≤ a.value) = true) (h2 : decide (c.value ≤ b.value) = true) :
    decide (c.value ≤ a.value) = true := by
  simp only [decide_eq_true_eq] at h1 h2 ⊢
  omega

theorem descValue_total (a b : IndividualExposure) :
    (decide (b.value ≤ a.value) || decide (a.value ≤ b.value)) = true := by
  rcases Nat.le_total a.value b.value with h | h <;> simp [h]

/-- C7: `store_stakers_info` stores the full exposure unmodified in the
slashing-facing map and a reward-facing copy whose `others` list, when longer
than `MaxNominatorRewardedPerValidator`, is exactly the N highest-value
nominator entries in descending order of value; within the limit the two
copies are equal. -/
theorem c7_store_stakers_clipped (cfg : Config) (st : StakingState)
    (exposures : List (Nat × Exposure)) (era stash : Nat) (e : Exposure)
    (hmem : (stash, e) ∈ exposures) (hnodup : (exposures.map Prod.fst).Nodup) :
    (store_stakers_info cfg st exposures era).1.erasStakers era stash = some e ∧
      (store_stakers_info cfg st exposures era).1.erasStakersClipped era stash =
        some (clipExposure cfg.maxNominatorRewardedPerValidator e) ∧
      (e.others.length ≤ cfg.maxNominatorRewardedPerValidator →
        clipExposure cfg.maxNominatorRewardedPerValidator e = e) ∧
      (cfg.maxNominatorRewardedPerValidator < e.others.length →
        (clipExposure cfg.maxNominatorRewardedPerValidator e).others.length =
            cfg.maxNominatorRewardedPerValidator ∧
          (clipExposure cfg.maxNominatorRewardedPerValidator e).others.Pairwise
            (fun a b => b.value ≤ a.value) ∧
          ∃ dropped,
            ((clipExposure cfg.maxNominatorRewardedPerValidator e).others ++ dropped).Perm
                e.others ∧
              ∀ x ∈ dropped,
                ∀ y ∈ (clipExposure cfg.maxNominatorRewardedPerValidator e).others,
                  x.value ≤ y.value) := by
  have hstore :
      (store_stakers_info cfg st exposures era).1.erasStakers era stash = some e ∧
        (store_stakers_info cfg st exposures era).1.erasStakersClipped era stash =
          some (clipExposure cfg.maxNominatorRewardedPerValidator e) := by
    have hfold := storeFold_lookup cfg era exposures (st, 0) stash e hmem hnodup
    simp only [store_stakers_info]
    refine foldl_invariant (storePrefsStep era)
      (fun s =>
        s.erasStakers era stash = some e ∧
          s.erasStakersClipped era stash =
            some (clipExposure cfg.maxNominatorRewardedPerValidator e))
      (exposures.map Prod.fst) _ (fun s' b _ hP => hP) hfold
  refine ⟨hstore.1, hstore.2, fun h => clipExposure_of_le h, fun h => ?_⟩
  have hsorted :=
    List.sorted_mergeSort descValue_trans descValue_total e.others
  have hperm :=
    List.mergeSort_perm e.others (fun a b => decide (b.value ≤ a.value))
  have hlen : (e.others.mergeSort fun a b => decide (b.value ≤ a.value)).length =
      e.others.length := hperm.length_eq
  have hclip :
      (clipExposure cfg.maxNominatorRewardedPerValidator e).others =
        (e.others.mergeSort fun a b => decide (b.value ≤ a.value)).take
          cfg.maxNominatorRewardedPerValidator := by
    unfold clipExposure
    rw [if_pos h]
  have hsorted' :
      (e.others.mergeSort fun a b => decide (b.value ≤ a.value)).Pairwise
        (fun a b => b.value ≤ a.value) :=
    hsorted.imp fun hab => of_decide_eq_true hab
  refine ⟨?_, ?_, ?_⟩
  · rw [hclip, List.length_take, hlen]
    omega
  · rw [hclip]
    exact hsorted'.sublist (List.take_sublist _ _)
  · refine ⟨(e.others.mergeSort fun a b => decide (b.value ≤ a.value)).drop
      cfg.maxNominatorRewardedPerValidator, ?_, ?_⟩
    · rw [hclip, List.take_append_drop]
      exact hperm
    · intro x hx y hy
      rw [hclip] at hy
      have hsplit := hsorted'
      rw [← List.take_append_drop cfg.maxNominatorRewardedPerValidator
        (e.others.mergeSort fun a b => decide (b.value ≤ a.value))] at hsplit
      exact (List.pairwise_append.mp hsplit).2.2 y hy x hx

/-- Witness for C7 at a concrete exposure with three nominators and a clip
limit of two. -/
theorem c7_store_stakers_clipped_witness :
    (store_stakers_info ⟨6, 0, 84, 2, 1, 28⟩ baseState [(1, ⟨6, 0, [⟨5, 3⟩, ⟨6, 1⟩, ⟨7, 2⟩]⟩)]
        3).1.erasStakers 3 1 = some ⟨6, 0, [⟨5, 3⟩, ⟨6, 1⟩, ⟨7, 2⟩]⟩ ∧
      (store_stakers_info ⟨6, 0, 84, 2, 1, 28⟩ baseState
          [(1, ⟨6, 0, [⟨5, 3⟩, ⟨6, 1⟩, ⟨7, 2⟩]⟩)] 3).1.erasStakersClipped 3 1 =
        some (clipExposure 2 ⟨6, 0, [⟨5, 3⟩, ⟨6, 1⟩, ⟨7, 2⟩]⟩) :=
  ⟨(c7_store_stakers_clipped ⟨6, 0, 84, 2, 1, 28⟩ baseState
      [(1, ⟨6, 0, [⟨5, 3⟩, ⟨6, 1⟩, ⟨7, 2⟩]⟩)] 3 1 ⟨6, 0, [⟨5, 3⟩, ⟨6, 1⟩, ⟨7, 2⟩]⟩
      (by decide) (by decide)).1,
   (c7_store_stakers_clipped ⟨6, 0, 84, 2, 1, 28⟩ baseState
      [(1, ⟨6, 0, [⟨5, 3⟩, ⟨6, 1⟩, ⟨7, 2⟩]⟩)] 3 1 ⟨6, 0, [⟨5, 3⟩, ⟨6, 1⟩, ⟨7, 2⟩]⟩
      (by decide) (by decide)).2.1⟩

/-! Helper lemmas for the era counter and the forcing mode (C2, C6). -/

theorem store_stakers_info_currentEra (cfg : Config) (st : StakingState)
    (exposures : List (Nat × Exposure)) (era : Nat) :
    (store_stakers_info cfg st exposures era).1.currentEra = st.currentEra ∧
      (store_stakers_info cfg st exposures era).1.forceEra = st.forceEra := by
  simp only [store_stakers_info]
  refine foldl_invariant (storePrefsStep era)
    (fun s => s.currentEra = st.currentEra ∧ s.forceEra = st.forceEra)
    (exposures.map Prod.fst) _ (fun s' b _ hP => hP) ?_
  exact foldl_invariant (storeExposureStep cfg era)
    (fun a => a.1.currentEra = st.currentEra ∧ a.1.forceEra = st.forceEra)
    exposures (st, 0) (fun s' b _ hP => hP) ⟨rfl, rfl⟩

theorem trigger_new_era_currentEra (cfg : Config) (st : StakingState)
    (startSessionIndex : Nat) (exposures : List (Nat × Exposure)) :
    (trigger_new_era cfg st startSessionIndex exposures).1.currentEra =
        some ((st.currentEra.map fun x => x + 1).getD 0) ∧
      (trigger_new_era cfg st startSessionIndex exposures).1.forceEra = st.forceEra := by
  simp only [trigger_new_era]
  cases st.currentEra <;>
    · simp only [Option.map_some, Option.map_none, Option.getD]
      split_ifs <;>
        simpa using store_stakers_info_currentEra cfg _ exposures _

theorem try_trigger_new_era_forceEra (cfg : Config) (st : StakingState)
    (startSessionIndex : Nat) (electionResult : Option (List (Nat × Support)))
    (toCurrency : Nat → Nat) :
    (try_trigger_new_era cfg st startSessionIndex electionResult toCurrency).2.forceEra =
      st.forceEra := by
  unfold try_trigger_new_era
  cases electionResult with
  | none => rfl
  | some supports =>
      simp only
      split_ifs with h1
      · cases st.currentEra <;> rfl
      · exact (trigger_new_era_currentEra cfg st startSessionIndex _).2

/-- C2 (amended): `CurrentEra` goes up by exactly one on every successful
`trigger_new_era` (starting at 0 when unset), so after N successful triggers
from no era it equals N−1; a trigger attempt that fails never changes the
counter when an era already exists, and a solver error changes nothing at
all — the one exception being a genesis attempt whose election succeeds with
too few winners, which initialises the counter to 0 (see the
counterexample). -/
theorem c2_era_counter (cfg : Config) :
    (∀ (st : StakingState) (sess : Nat) (exposures : List (Nat × Exposure)),
        (trigger_new_era cfg st sess exposures).1.currentEra =
          some ((st.currentEra.map fun x => x + 1).getD 0)) ∧
      (∀ (inputs : List (Nat × List (Nat × Exposure))) (st : StakingState),
        st.currentEra = none → inputs ≠ [] →
        (iterateTriggers cfg inputs st).currentEra = some (inputs.length - 1)) ∧
      (∀ (st : StakingState) (sess : Nat) (res : Option (List (Nat × Support)))
          (toCur : Nat → Nat) (e : Nat),
        st.currentEra = some e →
        (try_trigger_new_era cfg st sess res toCur).1 = none →
        (try_trigger_new_era cfg st sess res toCur).2.currentEra = some e) ∧
      (∀ (st : StakingState) (sess : Nat) (toCur : Nat → Nat),
        try_trigger_new_era cfg st sess none toCur = (none, st)) := by
  have hbump := fun st sess exposures =>
    (trigger_new_era_currentEra cfg st sess exposures).1
  refine ⟨hbump, ?_, ?_, fun st sess toCur => rfl⟩
  · have haux :
        ∀ (inputs : List (Nat × List (Nat × Exposure))) (st : StakingState) (k : Nat),
          st.currentEra = some k →
          (iterateTriggers cfg inputs st).currentEra = some (k + inputs.length) := by
      intro inputs
      induction inputs with
      | nil => intro st k hk; simpa [iterateTriggers] using hk
      | cons p rest ih =>
          intro st k hk
          have hstep := hbump st p.1 p.2
          rw [hk] at hstep
          have := ih (trigger_new_era cfg st p.1 p.2).1 (k + 1) (by simpa using hstep)
          simp only [iterateTriggers, List.foldl_cons] at *
          rw [this, List.length_cons]
          congr 1
          omega
    intro inputs st hnone hne
    cases inputs with
    | nil => exact absurd rfl hne
    | cons p rest =>
        have hstep := hbump st p.1 p.2
        rw [hnone] at hstep
        have := haux rest (trigger_new_era cfg st p.1 p.2).1 0 (by simpa using hstep)
        simp only [iterateTriggers, List.foldl_cons] at *
        rw [this, List.length_cons]
        congr 1
        omega
  · intro st sess res toCur e he hfail
    unfold try_trigger_new_era at hfail ⊢
    cases res with
    | none => exact he
    | some supports =>
        simp only at hfail ⊢
        split_ifs at hfail ⊢ with h1
        rw [he]
        exact he

/-- Witness for C2 at concrete inputs. -/
theorem c2_era_counter_witness :
    (trigger_new_era cfgA baseState 0 []).1.currentEra = some 0 ∧
      (try_trigger_new_era cfgA c6State 4 (some []) id).2.currentEra = some 0 :=
  ⟨(c2_era_counter cfgA).1 baseState 0 [],
   (c2_era_counter cfgA).2.2.1 c6State 4 (some []) id 0 rfl rfl⟩

theorem new_session_some (cfg : Config) (st : StakingState) (sess : Nat)
    (res : Option (List (Nat × Support))) (toCur : Nat → Nat) (e : Nat)
    (h : st.currentEra = some e) :
    new_session cfg st sess res toCur =
      if (match st.forceEra with
          | Forcing.ForceNew => true
          | Forcing.ForceAlways => true
          | Forcing.NotForcing =>
              decide (sess - (st.erasStartSessionIndex e).getD 0 ≥ cfg.sessionsPerEra)
          | Forcing.ForceNone => false) = true then
        if (try_trigger_new_era cfg st sess res toCur).1.isSome = true ∧
            (try_trigger_new_era cfg st sess res toCur).2.forceEra = Forcing.ForceNew then
          ((try_trigger_new_era cfg st sess res toCur).1,
            { (try_trigger_new_era cfg st sess res toCur).2 with
                forceEra := Forcing.NotForcing })
        else try_trigger_new_era cfg st sess res toCur
      else (none, st) := by
  unfold new_session
  rw [h]

/-- C6 (amended): after a successful trigger from `new_session` with an era
already set, the forcing mode is reset to `NotForcing` only when it was
`ForceNew`; `ForceAlways` is deliberately left in place. -/
theorem c6_force_new_reset (cfg : Config) (st : StakingState) (sess : Nat)
    (res : Option (List (Nat × Support))) (toCur : Nat → Nat) (e : Nat)
    (h : st.currentEra = some e) :
    ((new_session cfg st sess res toCur).1.isSome = true →
        st.forceEra = Forcing.ForceNew →
        (new_session cfg st sess res toCur).2.forceEra = Forcing.NotForcing) ∧
      (st.forceEra = Forcing.ForceAlways →
        (new_session cfg st sess res toCur).2.forceEra = Forcing.ForceAlways) := by
  have hpres := try_trigger_new_era_forceEra cfg st sess res toCur
  rw [new_session_some cfg st sess res toCur e h]
  constructor
  · intro hsome hf
    rw [hf] at hsome ⊢
    simp only [if_pos rfl] at hsome ⊢
    by_cases hc :
        (try_trigger_new_era cfg st sess res toCur).1.isSome = true ∧
          (try_trigger_new_era cfg st sess res toCur).2.forceEra = Forcing.ForceNew
    · simp [hc]
    · rw [if_neg hc] at hsome
      rw [hpres, hf] at hc
      exact absurd ⟨hsome, rfl⟩ hc
  · intro hf
    rw [hf]
    split_ifs with h1 h2
    · exact absurd (hf.symm.trans (hpres.symm.trans h2.2)) (by decide)
    · rw [hpres]
      exact hf
    · exact absurd rfl h1

/-- Witness for C6 at concrete states in both forcing modes. -/
theorem c6_force_new_reset_witness :
    (new_session cfgA c6StateForceNew 5 oneWinner id).2.forceEra = Forcing.NotForcing ∧
      (new_session cfgA c6State 5 oneWinner id).2.forceEra = Forcing.ForceAlways :=
  ⟨(c6_force_new_reset cfgA c6StateForceNew 5 oneWinner id 0 rfl).1 rfl rfl,
   (c6_force_new_reset cfgA c6State 5 oneWinner id 0 rfl).2 rfl⟩

/-! Helper lemmas for the offence enqueueing (C4). -/

theorem onOffenceStep_fold (cfg : Config) (computeSlash : SlashParams → Option UnappliedSlash)
    (base : StakingState) (activeEra slashEra : Nat) (ds : DisableStrategy)
    (hdefer : cfg.slashDeferDuration ≠ 0) :
    ∀ (pairs : List (OffenceDetails × Nat)) (s : StakingState),
      (pairs.foldl (onOffenceStep cfg computeSlash base activeEra slashEra ds)
            s).unappliedSlashes activeEra =
          s.unappliedSlashes activeEra ++
            computedSlashes cfg computeSlash base activeEra slashEra ds pairs ∧
        (∀ k, k ≠ activeEra →
          (pairs.foldl (onOffenceStep cfg computeSlash base activeEra slashEra ds)
              s).unappliedSlashes k = s.unappliedSlashes k) ∧
        (pairs.foldl (onOffenceStep cfg computeSlash base activeEra slashEra ds)
            s).earliestUnappliedSlash = s.earliestUnappliedSlash := by
  intro pairs
  induction pairs with
  | nil => intro s; simp [computedSlashes]
  | cons off rest ih =>
      intro s
      rw [List.foldl_cons]
      by_cases hin : off.1.offender.1 ∈ base.invulnerables
      · have hstep :
            onOffenceStep cfg computeSlash base activeEra slashEra ds s off = s := by
          simp [onOffenceStep, hin]
        have hexp :
            computedSlashes cfg computeSlash base activeEra slashEra ds (off :: rest) =
              computedSlashes cfg computeSlash base activeEra slashEra ds rest := by
          simp [computedSlashes, hin]
        rw [hstep, hexp]
        exact ih s
      · cases hcs : computeSlash
            ⟨off.1.offender.1, off.2, off.1.offender.2, slashEra,
              activeEra - cfg.bondingDuration, activeEra, base.slashRewardFraction, ds⟩ with
        | none =>
            have hstep :
                onOffenceStep cfg computeSlash base activeEra slashEra ds s off = s := by
              simp [onOffenceStep, hin, hcs]
            have hexp :
                computedSlashes cfg computeSlash base activeEra slashEra ds (off :: rest) =
                  computedSlashes cfg computeSlash base activeEra slashEra ds rest := by
              simp [computedSlashes, hin, hcs]
            rw [hstep, hexp]
            exact ih s
        | some u =>
            have hstep :
                onOffenceStep cfg computeSlash base activeEra slashEra ds s off =
                  { s with unappliedSlashes := fun e =>
                      if e = activeEra then
                        s.unappliedSlashes e ++ [{ u with reporters := off.1.reporters }]
                      else s.unappliedSlashes e } := by
              simp [onOffenceStep, hin, hcs, hdefer]
            have hexp :
                computedSlashes cfg computeSlash base activeEra slashEra ds (off :: rest) =
                  { u with reporters := off.1.reporters } ::
                    computedSlashes cfg computeSlash base activeEra slashEra ds rest := by
              simp [computedSlashes, hin, hcs]
            rw [hstep, hexp]
            rcases ih { s with unappliedSlashes := fun e =>
                if e = activeEra then
                  s.unappliedSlashes e ++ [{ u with reporters := off.1.reporters }]
                else s.unappliedSlashes e } with ⟨ha, hk, he⟩
            refine ⟨?_, ?_, he⟩
            · rw [ha]
              simp
            · intro k hkne
              rw [hk k hkne]
              simp [hkne]

/-- C4 (amended): for every offence processed by `on_offence` with a nonzero
defer duration, the computed `UnappliedSlash` records are enqueued under the
key of the *active* era at processing time (not the resolved slash era), and
an unset "earliest unapplied" watermark is set to the active era (not the
offence's own era). -/
theorem c4_enqueue_under_active_era (cfg : Config)
    (computeSlash : SlashParams → Option UnappliedSlash) (st : StakingState)
    (offenders : List OffenceDetails) (fractions : List Nat) (slashSession : Nat)
    (ds : DisableStrategy) (activeEra slashEra : Nat)
    (hA : st.activeEra = some activeEra)
    (hres : resolveSlashEra st activeEra slashSession = some slashEra)
    (hdefer : cfg.slashDeferDuration ≠ 0) :
    (st.earliestUnappliedSlash = none →
        (on_offence cfg computeSlash st offenders fractions slashSession
            ds).earliestUnappliedSlash = some activeEra) ∧
      (∀ k, k ≠ activeEra →
        (on_offence cfg computeSlash st offenders fractions slashSession
            ds).unappliedSlashes k = st.unappliedSlashes k) ∧
      (on_offence cfg computeSlash st offenders fractions slashSession
          ds).unappliedSlashes activeEra =
        st.unappliedSlashes activeEra ++
          computedSlashes cfg computeSlash st activeEra slashEra ds
            (offenders.zip fractions) := by
  simp only [on_offence, hA, hres]
  rcases onOffenceStep_fold cfg computeSlash (withWatermark st activeEra)
      activeEra slashEra ds hdefer (offenders.zip fractions)
      (withWatermark st activeEra) with ⟨ha, hk, he⟩
  refine ⟨fun hnone => ?_, hk, ha⟩
  rw [he]
  simp only [withWatermark, hnone]

/-- Witness for C4 at the concrete offence state. -/
theorem c4_enqueue_under_active_era_witness :
    (∀ k, k ≠ 2 →
        (on_offence cfgA alwaysSlash c4State [⟨(7, ⟨0, 0, []⟩), []⟩] [500] 3
            DisableStrategy.WhenSlashed).unappliedSlashes k = c4State.unappliedSlashes k) ∧
      (on_offence cfgA alwaysSlash c4State [⟨(7, ⟨0, 0, []⟩), []⟩] [500] 3
          DisableStrategy.WhenSlashed).earliestUnappliedSlash = some 2 :=
  ⟨(c4_enqueue_under_active_era cfgA alwaysSlash c4State [⟨(7, ⟨0, 0, []⟩), []⟩] [500] 3
      DisableStrategy.WhenSlashed 2 0 rfl (by decide) (by decide)).2.1,
   (c4_enqueue_under_active_era cfgA alwaysSlash c4State [⟨(7, ⟨0, 0, []⟩), []⟩] [500] 3
      DisableStrategy.WhenSlashed 2 0 rfl (by decide) (by decide)).1 rfl⟩

/-! Helper lemmas for the payout idempotency (C5): `make_payout` and the
nominator loop never change the current era, the era rewards, the bonded
map, or any ledger's claimed-rewards list. -/

theorem make_payout_view (st : StakingState) (stash amount : Nat) :
    (make_payout st stash amount).2.currentEra = st.currentEra ∧
      (make_payout st stash amount).2.erasValidatorReward = st.erasValidatorReward ∧
      (make_payout st stash amount).2.bonded = st.bonded ∧
      ∀ c, ((make_payout st stash amount).2.ledger c).map StakingLedger.claimed_rewards =
        (st.ledger c).map StakingLedger.claimed_rewards := by
  unfold make_payout
  cases hp : st.payee stash with
  | Controller =>
      cases hb : st.bonded stash <;> exact ⟨rfl, rfl, rfl, fun c => rfl⟩
  | Stash =>
      split_ifs with h <;> exact ⟨rfl, rfl, rfl, fun c => rfl⟩
  | Staked =>
      cases hb : st.bonded stash with
      | none => exact ⟨rfl, rfl, rfl, fun c => rfl⟩
      | some controller =>
          simp only []
          cases hl : st.ledger controller with
          | none => exact ⟨rfl, rfl, rfl, fun c => rfl⟩
          | some l =>
              refine ⟨rfl, rfl, rfl, fun c => ?_⟩
              by_cases hc : c = controller
              · subst hc
                simp [hl]
              · simp [hc]
  | Account dest => exact ⟨rfl, rfl, rfl, fun c => rfl⟩
  | None => exact ⟨rfl, rfl, rfl, fun c => rfl⟩

theorem payoutNominators_view (validatorLeftoverPayout total : Nat) :
    ∀ (others : List IndividualExposure) (s : StakingState),
      (payoutNominators validatorLeftoverPayout total others s).currentEra = s.currentEra ∧
        (payoutNominators validatorLeftoverPayout total others s).erasValidatorReward =
          s.erasValidatorReward ∧
        (payoutNominators validatorLeftoverPayout total others s).bonded = s.bonded ∧
        ∀ c, ((payoutNominators validatorLeftoverPayout total others s).ledger c).map
            StakingLedger.claimed_rewards = (s.ledger c).map StakingLedger.claimed_rewards := by
  intro others
  induction others with
  | nil => intro s; exact ⟨rfl, rfl, rfl, fun c => rfl⟩
  | cons nom rest ih =>
      intro s
      have hcons :
          payoutNominators validatorLeftoverPayout total (nom :: rest) s =
            payoutNominators validatorLeftoverPayout total rest
              (make_payout s nom.who
                (perbillMul (perbillFromRational nom.value total)
                  validatorLeftoverPayout)).2 := by
        simp [payoutNominators]
      rw [hcons]
      rcases ih (make_payout s nom.who
        (perbillMul (perbillFromRational nom.value total) validatorLeftoverPayout)).2 with
        ⟨i1, i2, i3, i4⟩
      rcases make_payout_view s nom.who
        (perbillMul (perbillFromRational nom.value total) validatorLeftoverPayout) with
        ⟨m1, m2, m3, m4⟩
      exact ⟨i1.trans m1, i2.trans m2, i3.trans m3, fun c => (i4 c).trans (m4 c)⟩

theorem payout_chain_view (s : StakingState) (stash amt leftover total : Nat)
    (others : List IndividualExposure) :
    (payoutNominators leftover total others (make_payout s stash amt).2).currentEra =
        s.currentEra ∧
      (payoutNominators leftover total others
          (make_payout s stash amt).2).erasValidatorReward = s.erasValidatorReward ∧
      (payoutNominators leftover total others (make_payout s stash amt).2).bonded =
        s.bonded ∧
      ∀ c, ((payoutNominators leftover total others
          (make_payout s stash amt).2).ledger c).map StakingLedger.claimed_rewards =
        (s.ledger c).map StakingLedger.claimed_rewards := by
  rcases payoutNominators_view leftover total others (make_payout s stash amt).2 with
    ⟨i1, i2, i3, i4⟩
  rcases make_payout_view s stash amt with ⟨m1, m2, m3, m4⟩
  exact ⟨i1.trans m1, i2.trans m2, i3.trans m3, fun c => (i4 c).trans (m4 c)⟩

theorem do_payout_stakers_ok (cfg : Config) (st : StakingState)
    (validatorStash era currentEra eraPayout controller : Nat) (ledger0 : StakingLedger)
    (hce : st.currentEra = some currentEra)
    (h1 : era ≤ currentEra) (h2 : currentEra - cfg.historyDepth ≤ era)
    (hrew : st.erasValidatorReward era = some eraPayout)
    (hb : st.bonded validatorStash = some controller)
    (hl : st.ledger controller = some ledger0)
    (hnc : era ∉ ledger0.claimed_rewards.filter fun x =>
        currentEra - cfg.historyDepth ≤ x) :
    ∃ st1, do_payout_stakers cfg st validatorStash era = Except.ok st1 ∧
      st1.currentEra = st.currentEra ∧
      st1.erasValidatorReward = st.erasValidatorReward ∧
      st1.bonded = st.bonded ∧
      (st1.ledger controller).map StakingLedger.claimed_rewards =
        some (List.orderedInsert (· ≤ ·) era
          (ledger0.claimed_rewards.filter fun x => currentEra - cfg.historyDepth ≤ x)) := by
  simp only [do_payout_stakers, hce, hrew, hb, hl]
  rw [if_neg (not_not_intro ⟨h1, h2⟩)]
  rw [if_neg hnc]
  by_cases hz : ((st.erasRewardPoints era).individual.lookup ledger0.stash).getD 0 = 0
  · rw [if_pos hz]
    refine ⟨_, rfl, rfl, rfl, rfl, ?_⟩
    simp
  · rw [if_neg hz]
    refine ⟨_, rfl, ?_, ?_, ?_, ?_⟩
    · exact ((payout_chain_view _ _ _ _ _ _).1).trans rfl
    · exact ((payout_chain_view _ _ _ _ _ _).2.1).trans rfl
    · exact ((payout_chain_view _ _ _ _ _ _).2.2.1).trans rfl
    · refine (((payout_chain_view _ _ _ _ _ _).2.2.2) controller).trans ?_
      simp

theorem do_payout_stakers_already (cfg : Config) (st : StakingState)
    (validatorStash era currentEra eraPayout controller : Nat) (ledger0 : StakingLedger)
    (hce : st.currentEra = some currentEra)
    (h1 : era ≤ currentEra) (h2 : currentEra - cfg.historyDepth ≤ era)
    (hrew : st.erasValidatorReward era = some eraPayout)
    (hb : st.bonded validatorStash = some controller)
    (hl : st.ledger controller = some ledger0)
    (hclaimed : era ∈ ledger0.claimed_rewards) :
    do_payout_stakers cfg st validatorStash era = Except.error PayoutError.AlreadyClaimed := by
  simp only [do_payout_stakers, hce, hrew, hb, hl]
  rw [if_neg (not_not_intro ⟨h1, h2⟩)]
  rw [if_pos (List.mem_filter.mpr ⟨hclaimed, decide_eq_true h2⟩)]

/-- C5 (amended): with a valid era reference and an unclaimed era, the first
`do_payout_stakers` call succeeds — whether or not the validator earned
points; even with zero points it is *not* a no-op, as it prunes claims older
than `current_era − history_depth` and records the era as claimed in the
controller's ledger — and the second call for the same `(controller, era)`
pair fails with `AlreadyClaimed`. -/
theorem c5_payout_idempotency (cfg : Config) (st : StakingState)
    (validatorStash era currentEra eraPayout controller : Nat) (ledger0 : StakingLedger)
    (hce : st.currentEra = some currentEra)
    (h1 : era ≤ currentEra) (h2 : currentEra - cfg.historyDepth ≤ era)
    (hrew : st.erasValidatorReward era = some eraPayout)
    (hb : st.bonded validatorStash = some controller)
    (hl : st.ledger controller = some ledger0)
    (hnc : era ∉ ledger0.claimed_rewards.filter fun x =>
        currentEra - cfg.historyDepth ≤ x) :
    ∃ st1, do_payout_stakers cfg st validatorStash era = Except.ok st1 ∧
      (st1.ledger controller).map StakingLedger.claimed_rewards =
        some (List.orderedInsert (· ≤ ·) era
          (ledger0.claimed_rewards.filter fun x => currentEra - cfg.historyDepth ≤ x)) ∧
      do_payout_stakers cfg st1 validatorStash era =
        Except.error PayoutError.AlreadyClaimed := by
  obtain ⟨st1, hok, hv1, hv2, hv3, hv4⟩ :=
    do_payout_stakers_ok cfg st validatorStash era currentEra eraPayout controller ledger0
      hce h1 h2 hrew hb hl hnc
  obtain ⟨l1, hl1, hl1c⟩ := Option.map_eq_some'.mp hv4
  refine ⟨st1, hok, hv4, ?_⟩
  refine do_payout_stakers_already cfg st1 validatorStash era currentEra eraPayout controller
    l1 (hv1.trans hce) h1 h2 ((congrFun hv2 era).trans hrew)
    ((congrFun hv3 validatorStash).trans hb) hl1 ?_
  rw [hl1c]
  exact (List.mem_orderedInsert _).mpr (Or.inl rfl)

/-- Witness for C5: the first call on the concrete zero-points state succeeds
and the second fails with `AlreadyClaimed`. -/
theorem c5_payout_idempotency_witness :
    ∃ st1, do_payout_stakers cfgA c5State 1 10 = Except.ok st1 ∧
      (st1.ledger 2).map StakingLedger.claimed_rewards =
        some (List.orderedInsert (· ≤ ·) 10
          (([] : List Nat).filter fun x => 10 - cfgA.historyDepth ≤ x)) ∧
      do_payout_stakers cfgA st1 1 10 = Except.error PayoutError.AlreadyClaimed :=
  c5_payout_idempotency cfgA c5State 1 10 10 100 2 ⟨1, 50, 50, [], []⟩ rfl (by decide)
    (by decide) rfl rfl rfl (by decide)

/-! Helper lemmas for the deferred-slash schedule (C3). -/

theorem apply_unapplied_none (cfg : Config) (s : StakingState) (A : Nat)
    (hw : s.earliestUnappliedSlash = none) :
    apply_unapplied_slashes cfg s A = (s, []) := by
  simp only [apply_unapplied_slashes, hw]

theorem apply_unapplied_queue (cfg : Config) (s : StakingState) (A w k : Nat)
    (hw : s.earliestUnappliedSlash = some w) :
    (apply_unapplied_slashes cfg s A).1.unappliedSlashes k =
      if w ≤ k ∧ k < A - cfg.slashDeferDuration then [] else s.unappliedSlashes k := by
  simp only [apply_unapplied_slashes, hw]

theorem apply_unapplied_earliest (cfg : Config) (s : StakingState) (A w : Nat)
    (hw : s.earliestUnappliedSlash = some w) :
    (apply_unapplied_slashes cfg s A).1.earliestUnappliedSlash =
      some (max w (A - cfg.slashDeferDuration)) := by
  simp only [apply_unapplied_slashes, hw]

theorem apply_unapplied_mem (cfg : Config) (s : StakingState) (A w : Nat)
    (x : UnappliedSlash) (hw : s.earliestUnappliedSlash = some w) :
    x ∈ (apply_unapplied_slashes cfg s A).2 ↔
      ∃ k, w ≤ k ∧ k < A - cfg.slashDeferDuration ∧ x ∈ s.unappliedSlashes k := by
  simp only [apply_unapplied_slashes, hw]
  rw [List.mem_flatMap]
  constructor
  · rintro ⟨k, hk, hxk⟩
    rw [List.mem_range'_1] at hk
    exact ⟨k, hk.1, by omega, hxk⟩
  · rintro ⟨k, hk1, hk2, hxk⟩
    exact ⟨k, List.mem_range'_1.mpr ⟨hk1, by omega⟩, hxk⟩

theorem runEraStarts_succ_last (cfg : Config) :
    ∀ (n A : Nat) (s : StakingState),
      runEraStarts cfg A (n + 1) s =
        ((apply_unapplied_slashes cfg (runEraStarts cfg A n s).1 (A + n)).1,
          (runEraStarts cfg A n s).2 ++
            [(A + n,
              (apply_unapplied_slashes cfg (runEraStarts cfg A n s).1 (A + n)).2)]) := by
  intro n
  induction n with
  | zero =>
      intro A s
      simp [runEraStarts]
  | succ m ih =>
      intro A s
      have hL :
          runEraStarts cfg A (m + 1 + 1) s =
            ((runEraStarts cfg (A + 1) (m + 1) (apply_unapplied_slashes cfg s A).1).1,
              (A, (apply_unapplied_slashes cfg s A).2) ::
                (runEraStarts cfg (A + 1) (m + 1) (apply_unapplied_slashes cfg s A).1).2) := by
        simp [runEraStarts]
      have hR :
          runEraStarts cfg A (m + 1) s =
            ((runEraStarts cfg (A + 1) m (apply_unapplied_slashes cfg s A).1).1,
              (A, (apply_unapplied_slashes cfg s A).2) ::
                (runEraStarts cfg (A + 1) m (apply_unapplied_slashes cfg s A).1).2) := by
        simp [runEraStarts]
      rw [hL, ih (A + 1) (apply_unapplied_slashes cfg s A).1, hR]
      have harith : A + 1 + m = A + (m + 1) := by omega
      rw [harith]
      simp

theorem runEraStarts_append (cfg : Config) :
    ∀ (m l A : Nat) (s : StakingState),
      runEraStarts cfg A (m + l) s =
        ((runEraStarts cfg (A + m) l (runEraStarts cfg A m s).1).1,
          (runEraStarts cfg A m s).2 ++
            (runEraStarts cfg (A + m) l (runEraStarts cfg A m s).1).2) := by
  intro m
  induction m with
  | zero =>
      intro l A s
      simp [runEraStarts, Nat.zero_add, Nat.add_zero]
  | succ m ih =>
      intro l A s
      have harith : m + 1 + l = (m + l) + 1 + 0 := by omega
      have hL :
          runEraStarts cfg A (m + 1 + l) s =
            ((runEraStarts cfg (A + 1) (m + l) (apply_unapplied_slashes cfg s A).1).1,
              (A, (apply_unapplied_slashes cfg s A).2) ::
                (runEraStarts cfg (A + 1) (m + l) (apply_unapplied_slashes cfg s A).1).2) := by
        rw [show m + 1 + l = (m + l) + 1 from by omega]
        simp [runEraStarts]
      have hM :
          runEraStarts cfg A (m + 1) s =
            ((runEraStarts cfg (A + 1) m (apply_unapplied_slashes cfg s A).1).1,
              (A, (apply_unapplied_slashes cfg s A).2) ::
                (runEraStarts cfg (A + 1) m (apply_unapplied_slashes cfg s A).1).2) := by
        simp [runEraStarts]
      rw [hL, ih l (A + 1) (apply_unapplied_slashes cfg s A).1, hM]
      have harith2 : A + 1 + m = A + (m + 1) := by omega
      rw [harith2]
      simp

theorem runEraStarts_era_range (cfg : Config) :
    ∀ (n A : Nat) (s : StakingState),
      ∀ p ∈ (runEraStarts cfg A n s).2, A ≤ p.1 ∧ p.1 < A + n := by
  intro n
  induction n with
  | zero => intro A s p hp; simp [runEraStarts] at hp
  | succ m ih =>
      intro A s p hp
      have hcons :
          (runEraStarts cfg A (m + 1) s).2 =
            (A, (apply_unapplied_slashes cfg s A).2) ::
              (runEraStarts cfg (A + 1) m (apply_unapplied_slashes cfg s A).1).2 := by
        simp [runEraStarts]
      rw [hcons] at hp
      rcases List.mem_cons.mp hp with heq | hmem
      · subst heq; exact ⟨le_refl _, by omega⟩
      · have := ih (A + 1) (apply_unapplied_slashes cfg s A).1 p hmem
        omega

theorem run_earliest_grows (cfg : Config) :
    ∀ (n A : Nat) (s : StakingState) (w : Nat),
      s.earliestUnappliedSlash = some w →
      ∃ w', (runEraStarts cfg A n s).1.earliestUnappliedSlash = some w' ∧ w ≤ w' := by
  intro n
  induction n with
  | zero => intro A s w hw; exact ⟨w, hw, le_refl w⟩
  | succ m ih =>
      intro A s w hw
      have hstep :
          runEraStarts cfg A (m + 1) s =
            ((runEraStarts cfg (A + 1) m (apply_unapplied_slashes cfg s A).1).1,
              (A, (apply_unapplied_slashes cfg s A).2) ::
                (runEraStarts cfg (A + 1) m (apply_unapplied_slashes cfg s A).1).2) := by
        simp [runEraStarts]
      rw [hstep]
      obtain ⟨w', hw', hle⟩ := ih (A + 1) (apply_unapplied_slashes cfg s A).1
        (max w (A - cfg.slashDeferDuration)) (apply_unapplied_earliest cfg s A w hw)
      exact ⟨w', hw', le_trans (le_max_left _ _) hle⟩

theorem run_before_due (cfg : Config) (E : Nat) :
    ∀ (n A : Nat) (s : StakingState) (w : Nat),
      s.earliestUnappliedSlash = some w → w ≤ E →
      A + n ≤ E + cfg.slashDeferDuration + 1 →
      (∀ k, (runEraStarts cfg A n s).1.unappliedSlashes k = s.unappliedSlashes k ∨
          (runEraStarts cfg A n s).1.unappliedSlashes k = []) ∧
        (runEraStarts cfg A n s).1.unappliedSlashes E = s.unappliedSlashes E ∧
        (∃ w', (runEraStarts cfg A n s).1.earliestUnappliedSlash = some w' ∧
          w ≤ w' ∧ w' ≤ E) ∧
        ∀ p ∈ (runEraStarts cfg A n s).2, ∀ y ∈ p.2,
          ∃ k, k < E ∧ y ∈ s.unappliedSlashes k := by
  intro n
  induction n with
  | zero =>
      intro A s w hw hwE _
      refine ⟨fun k => Or.inl rfl, rfl, ⟨w, hw, le_refl w, hwE⟩, ?_⟩
      intro p hp
      simp [runEraStarts] at hp
  | succ m ih =>
      intro A s w hw hwE hbound
      have hAE : A - cfg.slashDeferDuration ≤ E := by omega
      have hstep :
          runEraStarts cfg A (m + 1) s =
            ((runEraStarts cfg (A + 1) m (apply_unapplied_slashes cfg s A).1).1,
              (A, (apply_unapplied_slashes cfg s A).2) ::
                (runEraStarts cfg (A + 1) m (apply_unapplied_slashes cfg s A).1).2) := by
        simp [runEraStarts]
      have hq := apply_unapplied_queue cfg s A w
      have hqE : (apply_unapplied_slashes cfg s A).1.unappliedSlashes E =
          s.unappliedSlashes E := by
        rw [hq E hw]
        rw [if_neg (by omega)]
      have hE1 := apply_unapplied_earliest cfg s A w hw
      have hmax : max w (A - cfg.slashDeferDuration) ≤ E := max_le hwE hAE
      obtain ⟨ha, hb, hc, hd⟩ := ih (A + 1) (apply_unapplied_slashes cfg s A).1
        (max w (A - cfg.slashDeferDuration)) hE1 hmax (by omega)
      rw [hstep]
      refine ⟨?_, ?_, ?_, ?_⟩
      · intro k
        rcases ha k with h | h
        · rw [h, hq k hw]
          by_cases hcond : w ≤ k ∧ k < A - cfg.slashDeferDuration
          · rw [if_pos hcond]; exact Or.inr rfl
          · rw [if_neg hcond]; exact Or.inl rfl
        · exact Or.inr h
      · rw [hb, hqE]
      · obtain ⟨w', hw', hle, hle2⟩ := hc
        exact ⟨w', hw', le_trans (le_max_left _ _) hle, hle2⟩
      · intro p hp y hy
        rcases List.mem_cons.mp hp with heq | hmem
        · subst heq
          obtain ⟨k, hk1, hk2, hk3⟩ := (apply_unapplied_mem cfg s A w y hw).mp hy
          exact ⟨k, by omega, hk3⟩
        · obtain ⟨k, hk1, hk2⟩ := hd p hmem y hy
          rw [hq k hw] at hk2
          by_cases hcond : w ≤ k ∧ k < A - cfg.slashDeferDuration
          · rw [if_pos hcond] at hk2; exact absurd hk2 (List.not_mem_nil y)
          · rw [if_neg hcond] at hk2; exact ⟨k, hk1, hk2⟩

theorem run_after_due (cfg : Config) (E : Nat) (x : UnappliedSlash) :
    ∀ (n A : Nat) (s : StakingState) (w' : Nat),
      s.earliestUnappliedSlash = some w' → E < w' →
      s.unappliedSlashes E = [] →
      (∀ k, x ∈ s.unappliedSlashes k → k = E) →
      (∀ p ∈ (runEraStarts cfg A n s).2, x ∉ p.2) ∧
        (runEraStarts cfg A n s).1.unappliedSlashes E = [] := by
  intro n
  induction n with
  | zero =>
      intro A s w' hw hEw hqE _
      refine ⟨?_, hqE⟩
      intro p hp
      simp [runEraStarts] at hp
  | succ m ih =>
      intro A s w' hw hEw hqE hxfree
      have hstep :
          runEraStarts cfg A (m + 1) s =
            ((runEraStarts cfg (A + 1) m (apply_unapplied_slashes cfg s A).1).1,
              (A, (apply_unapplied_slashes cfg s A).2) ::
                (runEraStarts cfg (A + 1) m (apply_unapplied_slashes cfg s A).1).2) := by
        simp [runEraStarts]
      have hq := apply_unapplied_queue cfg s A w'
      have hqE1 : (apply_unapplied_slashes cfg s A).1.unappliedSlashes E = [] := by
        rw [hq E hw]
        by_cases hcond : w' ≤ E ∧ E < A - cfg.slashDeferDuration
        · rw [if_pos hcond]
        · rw [if_neg hcond]; exact hqE
      have hxfree1 : ∀ k, x ∈ (apply_unapplied_slashes cfg s A).1.unappliedSlashes k →
          k = E := by
        intro k hk
        rw [hq k hw] at hk
        by_cases hcond : w' ≤ k ∧ k < A - cfg.slashDeferDuration
        · rw [if_pos hcond] at hk; exact absurd hk (List.not_mem_nil x)
        · rw [if_neg hcond] at hk; exact hxfree k hk
      have hE1 := apply_unapplied_earliest cfg s A w' hw
      have hEw1 : E < max w' (A - cfg.slashDeferDuration) :=
        lt_of_lt_of_le hEw (le_max_left _ _)
      obtain ⟨ha, hb⟩ := ih (A + 1) (apply_unapplied_slashes cfg s A).1
        (max w' (A - cfg.slashDeferDuration)) hE1 hEw1 hqE1 hxfree1
      rw [hstep]
      refine ⟨?_, hb⟩
      intro p hp
      rcases List.mem_cons.mp hp with heq | hmem
      · subst heq
        intro hy
        obtain ⟨k, hk1, hk2, hk3⟩ := (apply_unapplied_mem cfg s A w' x hw).mp hy
        have := hxfree k hk3
        omega
      · exact ha p hmem

/-- C3: a slash queued under era `E` (with the watermark at or below `E` and
occurring only in era `E`'s queue) is applied exactly once over a run of
consecutive era starts — drained precisely at the first era-start whose
active era `A` satisfies `A - defer_duration > E`, i.e. `A = E + D + 1` —
after which era `E`'s queue stays empty; and at every era start the
watermark advances to `max earliest (active_era - defer_duration)`, never
regressing. -/
theorem c3_deferred_slash_applied_once (cfg : Config) (s : StakingState)
    (w E A₀ n : Nat) (x : UnappliedSlash)
    (hw : s.earliestUnappliedSlash = some w)
    (hwE : w ≤ E)
    (hx : x ∈ s.unappliedSlashes E)
    (hxonly : ∀ k, x ∈ s.unappliedSlashes k → k = E)
    (hstart : A₀ ≤ E + cfg.slashDeferDuration)
    (hreach : E + cfg.slashDeferDuration + 1 < A₀ + n) :
    (∀ p ∈ (runEraStarts cfg A₀ n s).2,
        (x ∈ p.2 ↔ p.1 = E + cfg.slashDeferDuration + 1)) ∧
      (runEraStarts cfg A₀ n s).1.unappliedSlashes E = [] ∧
      (∀ i, i < n →
        ∃ wi, (runEraStarts cfg A₀ i s).1.earliestUnappliedSlash = some wi ∧
          (runEraStarts cfg A₀ (i + 1) s).1.earliestUnappliedSlash =
            some (max wi (A₀ + i - cfg.slashDeferDuration)) ∧
          wi ≤ max wi (A₀ + i - cfg.slashDeferDuration)) := by
  obtain ⟨k0, hk0eq⟩ : ∃ k0, A₀ + k0 = E + cfg.slashDeferDuration + 1 :=
    ⟨E + cfg.slashDeferDuration + 1 - A₀, by omega⟩
  obtain ⟨m2, hm2⟩ : ∃ m2, n = k0 + (m2 + 1) := ⟨n - k0 - 1, by omega⟩
  subst hm2
  obtain ⟨hA_or, hA_E, ⟨w₁, hw₁, hw₁ge, hw₁le⟩, hA_out⟩ :=
    run_before_due cfg E k0 A₀ s w hw hwE (by omega)
  have happ := runEraStarts_append cfg k0 (m2 + 1) A₀ s
  set s₁ := (runEraStarts cfg A₀ k0 s).1 with hs₁
  have hstep :
      runEraStarts cfg (A₀ + k0) (m2 + 1) s₁ =
        ((runEraStarts cfg (A₀ + k0 + 1) m2
            (apply_unapplied_slashes cfg s₁ (A₀ + k0)).1).1,
          (A₀ + k0, (apply_unapplied_slashes cfg s₁ (A₀ + k0)).2) ::
            (runEraStarts cfg (A₀ + k0 + 1) m2
              (apply_unapplied_slashes cfg s₁ (A₀ + k0)).1).2) := by
    simp [runEraStarts]
  have hxapp : x ∈ (apply_unapplied_slashes cfg s₁ (A₀ + k0)).2 :=
    (apply_unapplied_mem cfg s₁ (A₀ + k0) w₁ x hw₁).mpr
      ⟨E, hw₁le, by omega, by rw [hA_E]; exact hx⟩
  have hs₂E : (apply_unapplied_slashes cfg s₁ (A₀ + k0)).1.unappliedSlashes E = [] := by
    rw [apply_unapplied_queue cfg s₁ (A₀ + k0) w₁ E hw₁]
    rw [if_pos ⟨hw₁le, by omega⟩]
  have hs₂earliest := apply_unapplied_earliest cfg s₁ (A₀ + k0) w₁ hw₁
  have hs₂free : ∀ k,
      x ∈ (apply_unapplied_slashes cfg s₁ (A₀ + k0)).1.unappliedSlashes k → k = E := by
    intro k hk
    rw [apply_unapplied_queue cfg s₁ (A₀ + k0) w₁ k hw₁] at hk
    by_cases hcond : w₁ ≤ k ∧ k < A₀ + k0 - cfg.slashDeferDuration
    · rw [if_pos hcond] at hk
      exact absurd hk (List.not_mem_nil x)
    · rw [if_neg hcond] at hk
      rcases hA_or k with h | h
      · rw [h] at hk
        exact hxonly k hk
      · rw [h] at hk
        exact absurd hk (List.not_mem_nil x)
  have hEltmax : E < max w₁ (A₀ + k0 - cfg.slashDeferDuration) :=
    lt_of_lt_of_le (by omega) (le_max_right _ _)
  obtain ⟨hB_out, hB_E⟩ := run_after_due cfg E x m2 (A₀ + k0 + 1)
    (apply_unapplied_slashes cfg s₁ (A₀ + k0)).1
    (max w₁ (A₀ + k0 - cfg.slashDeferDuration)) hs₂earliest hEltmax hs₂E hs₂free
  have hout2 :
      (runEraStarts cfg A₀ (k0 + (m2 + 1)) s).2 =
        (runEraStarts cfg A₀ k0 s).2 ++
          ((A₀ + k0, (apply_unapplied_slashes cfg s₁ (A₀ + k0)).2) ::
            (runEraStarts cfg (A₀ + k0 + 1) m2
              (apply_unapplied_slashes cfg s₁ (A₀ + k0)).1).2) := by
    rw [happ, hstep]
  have hout1 :
      (runEraStarts cfg A₀ (k0 + (m2 + 1)) s).1 =
        (runEraStarts cfg (A₀ + k0 + 1) m2
          (apply_unapplied_slashes cfg s₁ (A₀ + k0)).1).1 := by
    rw [happ, hstep]
  refine ⟨?_, ?_, ?_⟩
  · intro p hp
    rw [hout2] at hp
    rcases List.mem_append.mp hp with hp1 | hp2
    · constructor
      · intro hxp
        obtain ⟨k, hkE, hky⟩ := hA_out p hp1 x hxp
        have := hxonly k hky
        omega
      · intro hpe
        have hrange := runEraStarts_era_range cfg k0 A₀ s p hp1
        omega
    · rcases List.mem_cons.mp hp2 with heq | hp3
      · subst heq
        constructor
        · intro _
          omega
        · intro _
          exact hxapp
      · constructor
        · intro hxp
          exact absurd hxp (hB_out p hp3)
        · intro hpe
          have hrange := runEraStarts_era_range cfg m2 (A₀ + k0 + 1)
            (apply_unapplied_slashes cfg s₁ (A₀ + k0)).1 p hp3
          omega
  · rw [hout1]
    exact hB_E
  · intro i hi
    obtain ⟨wi, hwi, _⟩ := run_earliest_grows cfg i A₀ s w hw
    refine ⟨wi, hwi, ?_, le_max_left _ _⟩
    rw [runEraStarts_succ_last cfg i A₀ s]
    exact apply_unapplied_earliest cfg (runEraStarts cfg A₀ i s).1 (A₀ + i) wi hwi

/-- Witness for C3: defer duration 1, a slash queued under era 0, watermark
at 0, running the era starts 1, 2, 3. -/
theorem c3_deferred_slash_applied_once_witness :
    (∀ p ∈ (runEraStarts cfgA 1 3
        { baseState with
            earliestUnappliedSlash := some 0
            unappliedSlashes := fun k => if k = 0 then [⟨9, 5, [], [], 0⟩] else [] }).2,
      (⟨9, 5, [], [], 0⟩ : UnappliedSlash) ∈ p.2 ↔ p.1 = 0 + cfgA.slashDeferDuration + 1) ∧
      (runEraStarts cfgA 1 3
        { baseState with
            earliestUnappliedSlash := some 0
            unappliedSlashes := fun k =>
              if k = 0 then [⟨9, 5, [], [], 0⟩] else [] }).1.unappliedSlashes 0 = [] ∧
      (∀ i, i < 3 →
        ∃ wi, (runEraStarts cfgA 1 i
            { baseState with
                earliestUnappliedSlash := some 0
                unappliedSlashes := fun k =>
                  if k = 0 then [⟨9, 5, [], [], 0⟩] else [] }).1.earliestUnappliedSlash =
              some wi ∧
          (runEraStarts cfgA 1 (i + 1)
              { baseState with
                  earliestUnappliedSlash := some 0
                  unappliedSlashes := fun k =>
                    if k = 0 then [⟨9, 5, [], [], 0⟩] else [] }).1.earliestUnappliedSlash =
            some (max wi (1 + i - cfgA.slashDeferDuration)) ∧
          wi ≤ max wi (1 + i - cfgA.slashDeferDuration)) :=
  c3_deferred_slash_applied_once cfgA
    { baseState with
        earliestUnappliedSlash := some 0
        unappliedSlashes := fun k => if k = 0 then [⟨9, 5, [], [], 0⟩] else [] }
    0 0 1 3 ⟨9, 5, [], [], 0⟩ rfl (by decide) (by decide)
    (by
      intro k hk
      by_cases h : k = 0
      · exact h
      · simp [h] at hk)
    (by decide) (by decide)

end Substrate
